import Mathlib

/-!
# Verification of the note-assistant core (fuzzy lookup, TF-IDF search, bounded cache)

Shallow embedding of the plugin's core subsystems:

* `Perf` — the `PerformanceManager` bounded cache (`cacheSet`, `cacheGet`,
  `evictLeastRecentlyUsed`).  JS `Map` objects are modelled as association
  lists with unique keys kept in insertion order (a JS `Map` iterates in
  insertion order); the byte counter `currentCacheSize` is an `Int` and the
  hybrid LFU/LRU eviction score is an exact rational.  `Date.now()` is passed
  explicitly as `now`; `estimateObjectSize` (JSON + Blob, an environment
  facility) is passed as the `size` argument.
* `Fuzzy` — the multi-strategy note-title matcher (`lookupNote`,
  `searchNotes`, partial / word / Levenshtein scoring).  Strings are lists of
  characters; all scores are exact integers (`Math.round` is
  `⌊x + 1/2⌋`).  `Array.prototype.sort` (stable) is modelled by
  `List.mergeSort`.
* `Emb` — the `VectorEmbeddingsManager` TF-IDF index and semantic search.
  JS floating-point numbers are idealised as real numbers extended with NaN
  (`JsNum := Option ℝ`, `none` = NaN); `0/0` is NaN and every arithmetic
  operation and comparison propagates NaN exactly as in JS (comparisons with
  NaN are false).  Infinities cannot arise in this pipeline (all divisions
  with a nonzero numerator have a nonzero denominator), so `Option ℝ`
  is adequate.
-/

namespace JsMap

/-! Association lists with unique keys, in insertion order, modelling JS
`Map` objects (which iterate in insertion order). -/

variable {κ : Type} [BEq κ] [LawfulBEq κ] {β : Type u}

/-- `Map.get`: the value stored under `k`, if any. -/
def lookupAssoc (l : List (κ × β)) (k : κ) : Option β :=
  (l.find? (fun p => p.1 == k)).map (·.2)

/-- `Map.has`. -/
def hasKey (l : List (κ × β)) (k : κ) : Bool :=
  l.any (fun p => p.1 == k)

/-- `Map.set`: replace in place if the key is present (JS `Map.set` keeps the
original insertion position), otherwise append. -/
def mapSet (l : List (κ × β)) (k : κ) (v : β) : List (κ × β) :=
  if hasKey l k then l.map (fun p => if p.1 == k then (k, v) else p)
  else l ++ [(k, v)]

/-- `Map.delete`: a JS `Map` has unique keys, so deleting `k` removes the one
binding with that key. -/
def mapDelete (l : List (κ × β)) (k : κ) : List (κ × β) :=
  l.filter (fun p => !(p.1 == k))

theorem mapDelete_eq_self {l : List (κ × β)} {k : κ}
    (h : ∀ p ∈ l, p.1 ≠ k) : mapDelete l k = l :=
  List.filter_eq_self.mpr (by
    intro p hp
    simpa using h p hp)

theorem nodup_keys_mapDelete {l : List (κ × β)} {k : κ}
    (h : (l.map Prod.fst).Nodup) : ((mapDelete l k).map Prod.fst).Nodup :=
  h.sublist ((List.filter_sublist l).map Prod.fst)

theorem mapDelete_perm {l rest : List (κ × β)} {k : κ} {e : β}
    (h : (l.map Prod.fst).Nodup) (hperm : l.Perm ((k, e) :: rest)) :
    (mapDelete l k).Perm rest := by
  have hnd : (((k, e) :: rest).map Prod.fst).Nodup :=
    ((hperm.map Prod.fst).symm).nodup_iff.mpr h
  simp only [List.map_cons, List.nodup_cons] at hnd
  have hrest : mapDelete rest k = rest := mapDelete_eq_self (by
    intro p hp hpk
    exact hnd.1 (by rw [← hpk]; exact List.mem_map_of_mem Prod.fst hp))
  have step : (mapDelete l k).Perm (mapDelete ((k, e) :: rest) k) := hperm.filter _
  have heq : mapDelete ((k, e) :: rest) k = rest := by
    simp only [mapDelete, List.filter_cons]
    simp only [mapDelete] at hrest
    simp [hrest]
  rw [heq] at step
  exact step

theorem lookupAssoc_mem {l : List (κ × β)} {k : κ} {e : β}
    (h : lookupAssoc l k = some e) : (k, e) ∈ l := by
  unfold lookupAssoc at h
  rcases hf : l.find? (fun p => p.1 == k) with _ | p
  · rw [hf] at h; cases h
  · rw [hf] at h
    have hp : p.1 = k := by simpa using List.find?_some hf
    have hmem := List.mem_of_find?_eq_some hf
    have h2 : p.2 = e := by
      have h3 := h
      simp only [Option.map] at h3
      exact Option.some.inj h3
    have hpe : p = (k, e) := by
      rw [Prod.ext_iff]
      exact ⟨hp, h2⟩
    rw [← hpe]
    exact hmem

theorem lookupAssoc_none {l : List (κ × β)} {k : κ}
    (h : lookupAssoc l k = none) : ∀ p ∈ l, p.1 ≠ k := by
  intro p hp hpk
  have hsome : (l.find? (fun p => p.1 == k)).isSome :=
    List.find?_isSome.mpr ⟨p, hp, by simpa using hpk⟩
  unfold lookupAssoc at h
  rcases hf : l.find? (fun p => p.1 == k) with _ | q
  · rw [hf] at hsome; cases hsome
  · rw [hf] at h; cases h

theorem nodup_keys_mapSet {l : List (κ × β)} (k : κ) (v : β)
    (h : (l.map Prod.fst).Nodup) : ((mapSet l k v).map Prod.fst).Nodup := by
  unfold mapSet
  by_cases hk : hasKey l k = true
  · rw [if_pos hk]
    have heq : (l.map (fun p => if p.1 == k then (k, v) else p)).map Prod.fst
        = l.map Prod.fst := by
      rw [List.map_map]
      apply List.map_congr_left
      intro p _
      by_cases hp : p.1 = k <;> simp [Function.comp, hp]
    rw [heq]; exact h
  · rw [if_neg hk]
    unfold hasKey at hk
    rw [List.any_eq_true] at hk
    push_neg at hk
    rw [List.map_append]
    simp only [List.map_cons, List.map_nil]
    refine List.Nodup.append h (List.nodup_singleton k) ?_
    intro a ha hb
    simp only [List.mem_singleton] at hb
    obtain ⟨p, hp, hpa⟩ := List.mem_map.mp ha
    exact hk p hp (by simp [hpa, hb])

theorem lookupAssoc_mapSet_self (l : List (κ × β)) (k : κ) (v : β) :
    lookupAssoc (mapSet l k v) k = some v := by
  unfold mapSet
  by_cases h : hasKey l k = true
  · rw [if_pos h]
    unfold hasKey at h
    induction l with
    | nil => cases h
    | cons p rest ih =>
      by_cases hp : p.1 = k
      · have hpb : (p.1 == k) = true := by simpa using hp
        simp [lookupAssoc, List.find?, hpb]
      · have hpb : (p.1 == k) = false := by simpa using hp
        simp only [List.any_cons, hpb, Bool.false_or] at h
        simp only [List.map_cons, hpb, if_false, lookupAssoc, List.find?]
        simp only [Bool.false_eq_true, if_false]
        rw [hpb]
        exact ih h
  · rw [if_neg h]
    unfold hasKey at h
    rw [Bool.not_eq_true, List.any_eq_false] at h
    induction l with
    | nil => simp [lookupAssoc, List.find?]
    | cons p rest ih =>
      have hp : (p.1 == k) = false := by
        have hh := h p (List.mem_cons_self _ _)
        simpa using hh
      simp only [List.cons_append, lookupAssoc, List.find?, hp]
      exact ih (fun q hq => h q (List.mem_cons_of_mem _ hq))

theorem lookupAssoc_cons (x : κ × β) (l : List (κ × β)) (q : κ) :
    lookupAssoc (x :: l) q = if x.1 == q then some x.2 else lookupAssoc l q := by
  unfold lookupAssoc
  by_cases h : (x.1 == q) = true
  · rw [show List.find? (fun p => p.1 == q) (x :: l) = some x from
      List.find?_cons_of_pos _ h, if_pos h]
    rfl
  · rw [show List.find? (fun p => p.1 == q) (x :: l) = List.find? (fun p => p.1 == q) l from
      List.find?_cons_of_neg _ h, if_neg h]

theorem lookupAssoc_mapSet_ne (l : List (κ × β)) {k q : κ} (v : β) (hq : q ≠ k) :
    lookupAssoc (mapSet l k v) q = lookupAssoc l q := by
  have hkq : (k == q) = false := by
    simp only [beq_eq_false_iff_ne, ne_eq]
    exact fun hh => hq hh.symm
  unfold mapSet
  by_cases h : hasKey l k = true
  · rw [if_pos h]
    clear h
    induction l with
    | nil => rfl
    | cons p rest ih =>
      rw [List.map_cons, lookupAssoc_cons, lookupAssoc_cons]
      by_cases hp : p.1 = k
      · have hpb : (p.1 == k) = true := by simpa using hp
        have hpq : (p.1 == q) = false := by
          simp only [beq_eq_false_iff_ne, ne_eq]
          rw [hp]
          exact fun hh => hq hh.symm
        simp only [hpb, if_true, hkq, hpq, Bool.false_eq_true, if_false]
        exact ih
      · have hpb : (p.1 == k) = false := by simpa using hp
        simp only [hpb, Bool.false_eq_true, if_false]
        rcases Bool.eq_false_or_eq_true (p.1 == q) with hpq | hpq
        · simp [hpq]
        · simp only [hpq, Bool.false_eq_true, if_false]
          exact ih
  · rw [if_neg h]
    induction l with
    | nil =>
      rw [List.nil_append, lookupAssoc_cons]
      simp only [hkq, Bool.false_eq_true, if_false]
    | cons p rest ih =>
      rw [List.cons_append, lookupAssoc_cons, lookupAssoc_cons]
      have ih' := ih (fun hh => h (by
        unfold hasKey at hh ⊢
        rw [List.any_cons, hh]
        simp))
      rcases Bool.eq_false_or_eq_true (p.1 == q) with hpq | hpq
      · simp [hpq]
      · simp only [hpq, Bool.false_eq_true, if_false]
        exact ih'

end JsMap

namespace Perf

open JsMap

/-- `CacheEntry<T>` from the performance manager: value, last-access
timestamp, access count and estimated byte size (`ttl` is not a field). -/
structure CacheEntry (α : Type) where
  data : α
  timestamp : Nat
  accessCount : Nat
  size : Nat
  deriving DecidableEq

/-- The cache-related state of `PerformanceManager`. -/
structure PerformanceManager (α : Type) where
  cache : List (String × CacheEntry α)
  maxCacheSize : Int
  currentCacheSize : Int
  cacheHits : Nat
  cacheMisses : Nat
  deriving DecidableEq

/-- Aggregate estimated byte size of the stored entries. -/
def sumSizes (l : List (String × CacheEntry α)) : Int :=
  (l.map (fun p => (p.2.size : Int))).sum

/-- Eviction score from `evictLeastRecentlyUsed`:
`accessCount + (now - timestamp) / 1000000`, ascending order preferred. -/
def evictScore (now : Nat) (e : CacheEntry α) : ℚ :=
  (e.accessCount : ℚ) + ((now : ℚ) - (e.timestamp : ℚ)) / 1000000

/-- The eviction loop of `evictLeastRecentlyUsed`: walk the score-sorted
entries, deleting each entry and subtracting its size, stopping as soon as
`freedSpace >= requiredSpace`. -/
def evictLoop : PerformanceManager α → List (String × CacheEntry α) → Nat → Nat →
    PerformanceManager α
  | st, [], _, _ => st
  | st, (key, entry) :: rest, requiredSpace, freedSpace =>
    if requiredSpace ≤ freedSpace + entry.size then
      { st with cache := mapDelete st.cache key,
                currentCacheSize := st.currentCacheSize - (entry.size : Int) }
    else
      evictLoop
        { st with cache := mapDelete st.cache key,
                  currentCacheSize := st.currentCacheSize - (entry.size : Int) }
        rest requiredSpace (freedSpace + entry.size)

/-- `evictLeastRecentlyUsed`: sort the entries ascending by the hybrid
LFU/LRU score (JS `Array.prototype.sort` is stable; `Date.now()` is the
single instant `now`) and run the eviction loop. -/
def evictLeastRecentlyUsed (st : PerformanceManager α) (requiredSpace : Nat) (now : Nat) :
    PerformanceManager α :=
  evictLoop st
    (st.cache.mergeSort (fun a b => decide (evictScore now a.2 ≤ evictScore now b.2)))
    requiredSpace 0

/-- `cacheSet(key, data, ttl)`: evict if inserting would exceed the budget,
subtract a replaced entry's old size, then store a fresh entry.  The `ttl`
parameter is accepted (source default 3600000) but never used. -/
def cacheSet (st : PerformanceManager α) (key : String) (data : α) (size : Nat)
    (ttl : Nat) (now : Nat) : PerformanceManager α :=
  let st1 := if st.maxCacheSize < st.currentCacheSize + (size : Int)
    then evictLeastRecentlyUsed st size now else st
  let st2 := match lookupAssoc st1.cache key with
    | some oldEntry =>
        { st1 with currentCacheSize := st1.currentCacheSize - (oldEntry.size : Int) }
    | none => st1
  { st2 with cache := mapSet st2.cache key ⟨data, now, 0, size⟩,
             currentCacheSize := st2.currentCacheSize + (size : Int) }

/-- `cacheGet(key, maxAge)`: miss if absent; if `now - timestamp > maxAge`
delete the stale entry and miss; otherwise bump the access count, refresh the
timestamp and hit.  Returns the value (if any) and the updated state. -/
def cacheGet (st : PerformanceManager α) (key : String) (maxAge : Nat) (now : Nat) :
    Option α × PerformanceManager α :=
  match lookupAssoc st.cache key with
  | none => (none, { st with cacheMisses := st.cacheMisses + 1 })
  | some entry =>
    if (maxAge : Int) < (now : Int) - (entry.timestamp : Int) then
      (none, { st with cache := mapDelete st.cache key,
                       currentCacheSize := st.currentCacheSize - (entry.size : Int),
                       cacheMisses := st.cacheMisses + 1 })
    else
      (some entry.data,
       { st with cache := mapSet st.cache key
                   { entry with accessCount := entry.accessCount + 1, timestamp := now },
                 cacheHits := st.cacheHits + 1 })

/-- One `cacheSet` call of a call sequence. -/
structure SetOp (α : Type) where
  key : String
  data : α
  size : Nat
  ttl : Nat
  now : Nat
  deriving DecidableEq

/-- Run a sequence of `cacheSet` calls. -/
def runSets (st : PerformanceManager α) (ops : List (SetOp α)) : PerformanceManager α :=
  ops.foldl (fun s op => cacheSet s op.key op.data op.size op.ttl op.now) st

/-- Well-formedness of the modelled `Map`: keys are unique and the byte
counter equals the aggregate size of the stored entries. -/
def CacheWf (st : PerformanceManager α) : Prop :=
  (st.cache.map Prod.fst).Nodup ∧ st.currentCacheSize = sumSizes st.cache

instance (st : PerformanceManager α) : Decidable (CacheWf st) := by
  unfold CacheWf; infer_instance

/-- The initial cache: empty, 50 MB budget. -/
def initialPM : PerformanceManager Unit :=
  { cache := [], maxCacheSize := 50 * 1024 * 1024, currentCacheSize := 0,
    cacheHits := 0, cacheMisses := 0 }

theorem sumSizes_nonneg (l : List (String × CacheEntry α)) : 0 ≤ sumSizes l := by
  induction l with
  | nil => simp [sumSizes]
  | cons p rest ih =>
    simp only [sumSizes, List.map_cons, List.sum_cons] at *
    positivity

theorem sumSizes_mapDelete {l : List (String × CacheEntry α)}
    (h : (l.map Prod.fst).Nodup) {k : String} {e : CacheEntry α} (hmem : (k, e) ∈ l) :
    sumSizes (mapDelete l k) = sumSizes l - (e.size : Int) := by
  induction l with
  | nil => cases hmem
  | cons p rest ih =>
    simp only [List.map_cons, List.nodup_cons] at h
    by_cases hp : p.1 = k
    · have hrest : mapDelete rest k = rest := mapDelete_eq_self (by
        intro q hq hqk
        exact h.1 (by rw [hp, ← hqk]; exact List.mem_map_of_mem Prod.fst hq))
      have hpe : p.2 = e := by
        rcases List.mem_cons.mp hmem with hm | hm
        · rw [← hm]
        · exact absurd (by rw [hp]; exact List.mem_map_of_mem Prod.fst hm) h.1
      simp only [mapDelete, List.filter_cons, hp]
      simp only [mapDelete] at hrest
      simp [hrest, sumSizes, hpe]
    · have hm : (k, e) ∈ rest := by
        rcases List.mem_cons.mp hmem with hm | hm
        · exact absurd (by rw [← hm]) hp
        · exact hm
      have := ih h.2 hm
      simp only [mapDelete, List.filter_cons] at this ⊢
      have hpb : (!(p.1 == k)) = true := by simpa using hp
      rw [hpb]
      simp only [if_true, sumSizes, List.map_cons, List.sum_cons]
      simp only [sumSizes] at this
      omega

/-- Specification of the eviction loop: well-formedness is preserved, the
budget field is untouched, and either at least `required - freed` bytes were
freed or the cache was emptied entirely. -/
theorem evictLoop_spec :
    ∀ (entries : List (String × CacheEntry α)) (st : PerformanceManager α)
      (required freed : Nat),
      CacheWf st → entries.Perm st.cache →
      CacheWf (evictLoop st entries required freed) ∧
      (evictLoop st entries required freed).maxCacheSize = st.maxCacheSize ∧
      ((evictLoop st entries required freed).currentCacheSize ≤
          st.currentCacheSize - (required : Int) + (freed : Int) ∨
        (evictLoop st entries required freed).cache = []) := by
  intro entries
  induction entries with
  | nil =>
    intro st required freed hwf hperm
    refine ⟨hwf, rfl, Or.inr ?_⟩
    exact (List.Perm.nil_eq hperm).symm
  | cons p rest ih =>
    intro st required freed hwf hperm
    obtain ⟨k, e⟩ := p
    have hmem : (k, e) ∈ st.cache := hperm.mem_iff.mp (List.mem_cons_self _ _)
    simp only [evictLoop]
    set st' : PerformanceManager α :=
      { st with cache := mapDelete st.cache k,
                currentCacheSize := st.currentCacheSize - (e.size : Int) } with hst'
    have hwf' : CacheWf st' := by
      refine ⟨nodup_keys_mapDelete hwf.1, ?_⟩
      show st.currentCacheSize - (e.size : Int) = sumSizes (mapDelete st.cache k)
      rw [sumSizes_mapDelete hwf.1 hmem, hwf.2]
    have hperm' : rest.Perm st'.cache := (mapDelete_perm hwf.1 hperm.symm).symm
    have hcur' : st'.currentCacheSize = st.currentCacheSize - (e.size : Int) := rfl
    have hmax' : st'.maxCacheSize = st.maxCacheSize := rfl
    by_cases hbr : required ≤ freed + e.size
    · rw [if_pos hbr]
      refine ⟨hwf', rfl, Or.inl ?_⟩
      show st.currentCacheSize - (e.size : Int) ≤ _
      omega
    · rw [if_neg hbr]
      obtain ⟨h1, h2, h3⟩ := ih st' required (freed + e.size) hwf' hperm'
      refine ⟨h1, h2.trans hmax', ?_⟩
      rcases h3 with h3 | h3
      · rw [hcur'] at h3
        left
        omega
      · exact Or.inr h3

theorem sumSizes_mapSet_present {l : List (String × CacheEntry α)}
    (hnd : (l.map Prod.fst).Nodup) {k : String} {old : CacheEntry α}
    (h : lookupAssoc l k = some old) (v : CacheEntry α) :
    sumSizes (mapSet l k v) = sumSizes l - (old.size : Int) + (v.size : Int) := by
  have hmem := lookupAssoc_mem h
  have hk : hasKey l k = true := by
    unfold hasKey
    rw [List.any_eq_true]
    exact ⟨(k, old), hmem, by simp⟩
  unfold mapSet
  rw [if_pos hk]
  clear hk h
  induction l with
  | nil => cases hmem
  | cons p rest ih =>
    simp only [List.map_cons, List.nodup_cons] at hnd
    rcases List.mem_cons.mp hmem with hm | hm
    · have hp1 : p.1 = k := by rw [← hm]
      have hp2 : p.2 = old := by rw [← hm]
      have hrest : rest.map (fun p => if p.1 == k then (k, v) else p) = rest := by
        have hcg : rest.map (fun p => if p.1 == k then (k, v) else p) = rest.map id :=
          List.map_congr_left (by
            intro q hq
            have : q.1 ≠ k := fun hqk =>
              hnd.1 (by rw [hp1, ← hqk]; exact List.mem_map_of_mem Prod.fst hq)
            simp [this])
        rw [hcg, List.map_id]
      have hp1b : (p.1 == k) = true := by simpa using hp1
      simp only [List.map_cons, hp1b, if_true, hrest, sumSizes, List.sum_cons,
        List.map_cons]
      rw [← hp2]
      omega
    · have hp1 : p.1 ≠ k := fun hk =>
        hnd.1 (by rw [hk]; exact List.mem_map_of_mem Prod.fst hm)
      have hp1b : (p.1 == k) = false := by simpa using hp1
      have := ih hnd.2 hm
      simp only [List.map_cons, hp1b, if_false, sumSizes, List.sum_cons,
        List.map_cons] at this ⊢
      simp only [Bool.false_eq_true] at *
      simp only [if_false] at *
      omega

theorem sumSizes_mapSet_absent {l : List (String × CacheEntry α)} {k : String}
    (h : lookupAssoc l k = none) (v : CacheEntry α) :
    sumSizes (mapSet l k v) = sumSizes l + (v.size : Int) := by
  have habs := lookupAssoc_none h
  have hk : hasKey l k = false := by
    unfold hasKey
    rw [List.any_eq_false]
    intro p hp
    simpa using habs p hp
  unfold mapSet
  rw [hk]
  simp [sumSizes]

/-- One `cacheSet` call preserves well-formedness and the budget invariant,
provided the entry itself fits in the budget. -/
theorem cacheSet_step {st : PerformanceManager α} (key : String) (data : α)
    {size : Nat} (ttl now : Nat) (hwf : CacheWf st)
    (hcur : st.currentCacheSize ≤ st.maxCacheSize)
    (hsize : (size : Int) ≤ st.maxCacheSize) :
    CacheWf (cacheSet st key data size ttl now) ∧
    (cacheSet st key data size ttl now).maxCacheSize = st.maxCacheSize ∧
    (cacheSet st key data size ttl now).currentCacheSize ≤ st.maxCacheSize := by
  have hst1 : ∀ st1 : PerformanceManager α,
      st1 = (if st.maxCacheSize < st.currentCacheSize + (size : Int)
        then evictLeastRecentlyUsed st size now else st) →
      CacheWf st1 ∧ st1.maxCacheSize = st.maxCacheSize ∧
      (st1.currentCacheSize ≤ st.maxCacheSize - (size : Int) ∨ st1.cache = []) := by
    intro st1 h1
    by_cases hbig : st.maxCacheSize < st.currentCacheSize + (size : Int)
    · rw [if_pos hbig] at h1
      subst h1
      unfold evictLeastRecentlyUsed
      obtain ⟨h1, h2, h3⟩ := evictLoop_spec
        (st.cache.mergeSort (fun a b => decide (evictScore now a.2 ≤ evictScore now b.2)))
        st size 0 hwf (List.mergeSort_perm st.cache _)
      refine ⟨h1, h2, ?_⟩
      rcases h3 with h3 | h3
      · left; omega
      · exact Or.inr h3
    · rw [if_neg hbig] at h1
      subst h1
      exact ⟨hwf, rfl, Or.inl (by omega)⟩
  unfold cacheSet
  generalize hE : (if st.maxCacheSize < st.currentCacheSize + (size : Int)
    then evictLeastRecentlyUsed st size now else st) = E
  obtain ⟨hwf1, hmax1, hbound1⟩ := hst1 E hE.symm
  rcases hlook : lookupAssoc E.cache key with _ | old <;> simp only [hlook]
  · refine ⟨⟨nodup_keys_mapSet key _ hwf1.1, ?_⟩, hmax1, ?_⟩
    · show E.currentCacheSize + (size : Int) = _
      rw [sumSizes_mapSet_absent hlook, ← hwf1.2]
    · show E.currentCacheSize + (size : Int) ≤ st.maxCacheSize
      rcases hbound1 with h | h
      · omega
      · have : E.currentCacheSize = 0 := by rw [hwf1.2, h]; rfl
        omega
  · have hold : (0 : Int) ≤ (old.size : Int) := by positivity
    refine ⟨⟨nodup_keys_mapSet key _ hwf1.1, ?_⟩, hmax1, ?_⟩
    · show E.currentCacheSize - (old.size : Int) + (size : Int) = _
      rw [sumSizes_mapSet_present hwf1.1 hlook, ← hwf1.2]
    · show E.currentCacheSize - (old.size : Int) + (size : Int) ≤ st.maxCacheSize
      rcases hbound1 with h | h
      · omega
      · rw [h] at hlook
        simp [lookupAssoc] at hlook

/-- **C1 (amended), main theorem.**  After any sequence of `cacheSet` calls —
any keys, values, timestamps, TTLs and sizes, provided each call's estimated
size is individually at most the configured maximum — a well-formed cache
within budget stays within budget: after every call completes,
`currentCacheSize` (the aggregate cached byte size) still does not exceed
`maxCacheSize`. -/
theorem runSets_respects_bound {α : Type} (st : PerformanceManager α)
    (ops : List (SetOp α)) (hwf : CacheWf st)
    (hcur : st.currentCacheSize ≤ st.maxCacheSize)
    (hops : ∀ op ∈ ops, (op.size : Int) ≤ st.maxCacheSize) :
    (runSets st ops).currentCacheSize ≤ st.maxCacheSize := by
  induction ops generalizing st with
  | nil => exact hcur
  | cons op rest ih =>
    have hop : (op.size : Int) ≤ st.maxCacheSize := hops op (List.mem_cons_self _ _)
    obtain ⟨hwf', hmax', hcur'⟩ := cacheSet_step op.key op.data op.ttl op.now hwf hcur hop
    show (runSets (cacheSet st op.key op.data op.size op.ttl op.now) rest).currentCacheSize ≤ _
    rw [← hmax']
    exact ih _ hwf' (hmax' ▸ hcur') (fun o ho => hmax' ▸ hops o (List.mem_cons_of_mem _ ho))

/-- Witness for C1's amended theorem at a concrete input: the empty 50 MB
cache and a single 1000-byte insertion. -/
theorem runSets_respects_bound_witness :
    CacheWf initialPM ∧ initialPM.currentCacheSize ≤ initialPM.maxCacheSize ∧
    (∀ op ∈ [(⟨"k", (), 1000, 3600000, 5⟩ : SetOp Unit)],
      (op.size : Int) ≤ initialPM.maxCacheSize) ∧
    (runSets initialPM [⟨"k", (), 1000, 3600000, 5⟩]).currentCacheSize ≤
      initialPM.maxCacheSize := by
  refine ⟨by decide, by decide, by decide, ?_⟩
  exact runSets_respects_bound initialPM [⟨"k", (), 1000, 3600000, 5⟩]
    (by decide) (by decide) (by decide)

/-- **C1, counterexample.**  A single `cacheSet` whose estimated size
(50 MB + 1 byte) exceeds the 50 MB budget: eviction (of the empty cache)
frees nothing, the entry is stored anyway, and the aggregate cached size ends
up strictly above the configured maximum — refuting the claim for arbitrary
sizes. -/
theorem cacheSet_bound_counterexample :
    (runSets initialPM [⟨"k", (), 52428801, 3600000, 0⟩]).maxCacheSize = 52428800 ∧
    (runSets initialPM [⟨"k", (), 52428801, 3600000, 0⟩]).currentCacheSize = 52428801 ∧
    ¬ (runSets initialPM [⟨"k", (), 52428801, 3600000, 0⟩]).currentCacheSize ≤
        (runSets initialPM [⟨"k", (), 52428801, 3600000, 0⟩]).maxCacheSize := by
  have h : runSets initialPM [⟨"k", (), 52428801, 3600000, 0⟩] =
      { cache := [("k", ⟨(), 0, 0, 52428801⟩)], maxCacheSize := 52428800,
        currentCacheSize := 52428801, cacheHits := 0, cacheMisses := 0 } := by
    show cacheSet initialPM "k" () 52428801 3600000 0 = _
    unfold cacheSet evictLeastRecentlyUsed
    norm_num [initialPM, List.mergeSort_nil, evictLoop, lookupAssoc, mapSet, hasKey]
  rw [h]
  refine ⟨rfl, rfl, by decide⟩

/-- **C9.**  The `ttl` argument of `cacheSet` is dead: calls differing only
in `ttl` produce identical states, and whether a later `cacheGet` returns the
value is decided solely by `cacheGet`'s own `maxAge` argument and the entry's
stored timestamp (`ttl` is never stored or read). -/
theorem cacheSet_ttl_irrelevant {α : Type} (st : PerformanceManager α)
    (key : String) (data : α) (size : Nat) (now ttl₁ ttl₂ maxAge now₂ : Nat) :
    cacheSet st key data size ttl₁ now = cacheSet st key data size ttl₂ now ∧
    (cacheGet (cacheSet st key data size ttl₁ now) key maxAge now₂).1 =
      (if (maxAge : Int) < (now₂ : Int) - (now : Int) then none else some data) := by
  refine ⟨rfl, ?_⟩
  have hlook : lookupAssoc (cacheSet st key data size ttl₁ now).cache key =
      some (⟨data, now, 0, size⟩ : CacheEntry α) := by
    unfold cacheSet
    rcases lookupAssoc (if st.maxCacheSize < st.currentCacheSize + (size : Int)
        then evictLeastRecentlyUsed st size now else st).cache key with _ | old <;>
      exact lookupAssoc_mapSet_self _ key _
  unfold cacheGet
  simp only [hlook]
  by_cases hage : (maxAge : Int) < (now₂ : Int) - (now : Int)
  · simp [hage]
  · simp [hage]

end Perf

namespace Fuzzy

/-- Strings from the fuzzy matcher are modelled as lists of characters. -/
abbrev Str := List Char

/-- The identity of a vault file as seen by `lookupNote`: basename, full
path and extension. -/
structure VFile where
  name : Str
  path : Str
  extension : Str
  deriving DecidableEq

/-- JS `\s` (ASCII fragment: space, tab, CR, LF — the only whitespace this
plugin's data can contain). -/
def isWs (c : Char) : Bool := c.isWhitespace

/-- JS `String.prototype.trim`. -/
def trimStr (s : Str) : Str :=
  ((s.dropWhile isWs).reverse.dropWhile isWs).reverse

/-- JS `String.prototype.toLowerCase` (ASCII). -/
def toLowerStr (s : Str) : Str := s.map Char.toLower

/-- Is `sub` a contiguous substring starting anywhere in `s`? -/
def infixAt (sub : Str) : Str → Bool
  | [] => decide (sub = [])
  | c :: rest => sub.isPrefixOf (c :: rest) || infixAt sub rest

/-- JS `a.includes(b)`. -/
def jsIncludes (s sub : Str) : Bool := infixAt sub s

/-- JS `a.startsWith(b)`. -/
def jsStartsWith (s q : Str) : Bool := q.isPrefixOf s

/-- JS `Math.round` (half rounds towards `+∞`). -/
def jsRound (q : ℚ) : ℤ := ⌊q + 1 / 2⌋

/-- JS `s.replace(pat, rep)` with a plain-string pattern: replace the first
occurrence only (our patterns are never empty). -/
def replaceFirst (pat rep : Str) : Str → Str
  | [] => []
  | c :: rest =>
    if pat.isPrefixOf (c :: rest) then rep ++ (c :: rest).drop pat.length
    else c :: replaceFirst pat rep rest

/-- `file.name.replace('.md', '')` — the display name used throughout the
matcher (note: this removes the *first* occurrence of `.md`). -/
def displayNameOf (f : VFile) : Str := replaceFirst ['.', 'm', 'd'] [] f.name

/-- Characters removed by `sanitizeSearchTerm`'s character class
`[/\\?%*:|"<>\s\-_.]`. -/
def isSanitizedOut (c : Char) : Bool :=
  c = '/' || c = '\\' || c = '?' || c = '%' || c = '*' || c = ':' || c = '|' ||
  c = '"' || c = '<' || c = '>' || isWs c || c = '-' || c = '_' || c = '.'

/-- `sanitizeSearchTerm`: lowercase, drop path-unsafe characters, whitespace,
dashes, underscores and dots, trim. -/
def sanitizeSearchTerm (term : Str) : Str :=
  trimStr ((toLowerStr term).filter (fun c => !(isSanitizedOut c)))

/-- Word-splitting delimiters `[\s\-_]+` of the partial matcher. -/
def isWordDelim (c : Char) : Bool := isWs c || c = '-' || c = '_'

/-- Split on single delimiter characters.  JS `split(/[...]+/)` collapses
delimiter runs, but every use site filters out empty words right after, so
single-character splitting followed by that filter is equivalent. -/
def splitDelimsAux (p : Char → Bool) : Str → Str → List Str
  | [], cur => [cur.reverse]
  | c :: rest, cur =>
    if p c then cur.reverse :: splitDelimsAux p rest []
    else splitDelimsAux p rest (c :: cur)

def splitDelims (p : Char → Bool) (s : Str) : List Str := splitDelimsAux p s []

/-- `calculateWordMatch`: count the search words (of length ≥ 2) that overlap
some file word by containment either way, then score
`round(50 * matchRatio + 10)` (0 if nothing matched).  Only ever called with
`searchWords` nonempty, so the ratio's denominator is nonzero. -/
def calculateWordMatch (fileWords searchWords : List Str) : ℤ :=
  let totalWords := searchWords.length
  let matchCount := searchWords.countP (fun sw =>
    decide (2 ≤ sw.length) &&
    fileWords.any (fun fw => jsIncludes fw sw || jsIncludes sw fw))
  if matchCount = 0 then 0
  else jsRound ((50 : ℚ) * ((matchCount : ℚ) / (totalWords : ℚ)) + 10)

/-- `calculatePartialMatch`: substring scores 85/75/65, reverse containment
70, word-by-word overlap capped at 60. -/
def calculatePartialMatch (fileName searchTerm : Str) : ℤ :=
  if jsIncludes fileName searchTerm then
    if jsStartsWith fileName searchTerm then 85
    else if jsIncludes fileName (' ' :: searchTerm) ||
            jsIncludes fileName ('-' :: searchTerm) ||
            jsIncludes fileName ('_' :: searchTerm) then 75
    else 65
  else if jsIncludes searchTerm fileName && decide (3 < fileName.length) then 70
  else
    let searchWords := (splitDelims isWordDelim searchTerm).filter
      (fun w => decide (0 < w.length))
    let fileWords := (splitDelims isWordDelim fileName).filter
      (fun w => decide (0 < w.length))
    if 1 < searchWords.length ∧ 1 < fileWords.length then
      let wordMatchScore := calculateWordMatch fileWords searchWords
      if 0 < wordMatchScore then min 60 wordMatchScore else 0
    else 0

/-- One row-update step of the classic Levenshtein dynamic-programming
matrix: `levGo c2 str1 prevRowTail cur` computes the new row past its first
cell, where `prevRowTail` starts at `matrix[i-1][j-1]` and `cur` is the cell
to the left. -/
def levGo (c2 : Char) : Str → List Nat → Nat → List Nat
  | [], _, _ => []
  | _ :: _, [], _ => []
  | c1 :: cs, pPrev :: pRest, cur =>
    let d := pRest.headD 0
    let v := if c2 = c1 then pPrev else 1 + min pPrev (min cur d)
    v :: levGo c2 cs pRest v

/-- Compute matrix row `i` from row `i-1` (`prev.headD 0 + 1 = i`). -/
def levNext (str1 : Str) (prev : List Nat) (c2 : Char) : List Nat :=
  (prev.headD 0 + 1) :: levGo c2 str1 prev (prev.headD 0 + 1)

/-- `levenshteinDistance`: the DP matrix row by row; the answer is
`matrix[str2.length][str1.length]`, the last cell of the final row. -/
def levenshteinDistance (str1 str2 : Str) : Nat :=
  (str2.foldl (levNext str1) (List.range (str1.length + 1))).getLastD 0

/-- Length of the common prefix (the `prefixBonus`/`suffixBonus` loops stop
at the first mismatch and are naturally bounded by the shorter length). -/
def commonPrefixLen : Str → Str → Nat
  | a :: as, b :: bs => if a = b then 1 + commonPrefixLen as bs else 0
  | _, _ => 0

/-- `calculateFuzzyMatch`: similarity `(maxLen - distance)/maxLen * 100`,
plus 2 per matching leading character and 1 per matching trailing character,
rounded, capped at 100. -/
def calculateFuzzyMatch (fileName searchTerm : Str) : ℤ :=
  if fileName.length = 0 ∨ searchTerm.length = 0 then 0
  else
    let maxLength := max fileName.length searchTerm.length
    let distance := levenshteinDistance fileName searchTerm
    let similarity : ℚ := ((maxLength : ℚ) - (distance : ℚ)) / (maxLength : ℚ) * 100
    let prefixBonus : ℤ := 2 * (commonPrefixLen fileName searchTerm : ℤ)
    let suffixBonus : ℤ := (commonPrefixLen fileName.reverse searchTerm.reverse : ℤ)
    min 100 (jsRound (similarity + (prefixBonus : ℚ) + (suffixBonus : ℚ)))

/-- A scored candidate of `searchNotes` (`matchType` is the JS string
literal). -/
structure MatchResult where
  file : VFile
  score : ℤ
  matchType : String
  deriving DecidableEq

/-- The per-file strategy cascade of `searchNotes`: exact (100), sanitized
exact (95), partial (if positive), fuzzy (if above 30), else no result. -/
def scoreFile (searchTitle : Str) (f : VFile) : Option MatchResult :=
  let fileName := replaceFirst ['.', 'm', 'd'] [] f.name
  let fileNameLower := toLowerStr fileName
  let searchLower := toLowerStr searchTitle
  if fileName = searchTitle ∨ fileNameLower = searchLower then
    some ⟨f, 100, "exact"⟩
  else if sanitizeSearchTerm fileName = sanitizeSearchTerm searchTitle then
    some ⟨f, 95, "exact"⟩
  else
    let partialScore := calculatePartialMatch fileNameLower searchLower
    if 0 < partialScore then some ⟨f, partialScore, "partial"⟩
    else
      let fuzzyScore := calculateFuzzyMatch fileNameLower searchLower
      if 30 < fuzzyScore then some ⟨f, fuzzyScore, "fuzzy"⟩ else none

/-- `searchNotes`: score every file, keep the matches, sort descending by
score (JS stable sort with comparator `b.score - a.score`). -/
def searchNotes (files : List VFile) (searchTitle : Str) : List MatchResult :=
  (files.filterMap (scoreFile searchTitle)).mergeSort
    (fun a b => decide (b.score ≤ a.score))

/-- `lookupNote`: guard against empty titles, restrict to markdown files,
and return the best match's path (or null). -/
def lookupNote (files : List VFile) (title : Str) : Option Str :=
  if trimStr title = [] then none
  else
    let searchTitle := trimStr title
    let allFiles := files.filter (fun f => f.extension == ['m', 'd'])
    if allFiles.length = 0 then none
    else
      match searchNotes allFiles searchTitle with
      | [] => none
      | best :: _ => some best.file.path

theorem calculatePartialMatch_le (a b : Str) : calculatePartialMatch a b ≤ 85 := by
  unfold calculatePartialMatch
  dsimp only
  split_ifs with h1 h2 h3 h4 h5 h6
  · omega
  · omega
  · omega
  · omega
  · exact le_trans (min_le_left _ _) (by norm_num)
  · omega
  · omega

theorem calculateFuzzyMatch_le (a b : Str) : calculateFuzzyMatch a b ≤ 100 := by
  unfold calculateFuzzyMatch
  dsimp only
  split_ifs
  · norm_num
  · exact min_le_left _ _

theorem scoreFile_le_100 {t : Str} {f : VFile} {r : MatchResult}
    (h : scoreFile t f = some r) : r.score ≤ 100 := by
  unfold scoreFile at h
  dsimp only at h
  split_ifs at h with h1 h2 h3 h4
  · cases h; exact le_refl _
  · cases h; norm_num
  · cases h
    exact le_trans (calculatePartialMatch_le _ _) (by norm_num)
  · cases h
    exact calculateFuzzyMatch_le _ _

theorem scoreFile_file {t : Str} {f : VFile} {r : MatchResult}
    (h : scoreFile t f = some r) : r.file = f := by
  unfold scoreFile at h
  dsimp only at h
  split_ifs at h <;> (cases h; try rfl)

theorem scoreFile_self (D : VFile) :
    scoreFile (displayNameOf D) D = some ⟨D, 100, "exact"⟩ := by
  unfold scoreFile displayNameOf
  dsimp only
  rw [if_pos (Or.inl rfl)]

/-- **C2 (amended), main theorem.**  For an indexed markdown document `D`
whose display name (`name` minus the first `.md`) is nonempty, untouched by
trimming, and such that no other indexed markdown file attains the top score
100 for that query, `lookupNote` on `D`'s display name returns `D`'s path. -/
theorem lookupNote_roundtrip (files : List VFile) (D : VFile) (hmem : D ∈ files)
    (hext : D.extension = ['m', 'd'])
    (htrim : trimStr (displayNameOf D) = displayNameOf D)
    (hne : displayNameOf D ≠ [])
    (huniq : ∀ f ∈ files, f.extension = ['m', 'd'] →
      ∀ r, scoreFile (displayNameOf D) f = some r → r.score = 100 → f = D) :
    lookupNote files (displayNameOf D) = some D.path := by
  unfold lookupNote
  dsimp only
  rw [htrim, if_neg hne]
  set allFiles := files.filter (fun f => f.extension == ['m', 'd']) with hall
  have hmemAll : D ∈ allFiles := by
    rw [hall, List.mem_filter]
    exact ⟨hmem, by simp [hext]⟩
  have hlen : ¬ allFiles.length = 0 := by
    intro h0
    rw [List.length_eq_zero] at h0
    rw [h0] at hmemAll
    cases hmemAll
  rw [if_neg hlen]
  set results := allFiles.filterMap (scoreFile (displayNameOf D)) with hres
  have hrD : (⟨D, 100, "exact"⟩ : MatchResult) ∈ results := by
    rw [hres, List.mem_filterMap]
    exact ⟨D, hmemAll, scoreFile_self D⟩
  have htrans : ∀ (a b c : MatchResult),
      decide (b.score ≤ a.score) = true → decide (c.score ≤ b.score) = true →
      decide (c.score ≤ a.score) = true := by
    intro a b c hab hbc
    simp only [decide_eq_true_eq] at *
    omega
  have htotal : ∀ (a b : MatchResult),
      (decide (b.score ≤ a.score) || decide (a.score ≤ b.score)) = true := by
    intro a b
    simp only [Bool.or_eq_true, decide_eq_true_eq]
    omega
  rcases hs : searchNotes allFiles (displayNameOf D) with _ | ⟨r0, tail⟩
  · exfalso
    have hmm : (⟨D, 100, "exact"⟩ : MatchResult) ∈ searchNotes allFiles (displayNameOf D) := by
      rw [searchNotes]
      exact List.mem_mergeSort.mpr hrD
    rw [hs] at hmm
    cases hmm
  · simp only [hs]
    have hr0mem : r0 ∈ results := by
      have hmm : r0 ∈ searchNotes allFiles (displayNameOf D) := by
        rw [hs]
        exact List.mem_cons_self _ _
      rw [searchNotes] at hmm
      exact List.mem_mergeSort.mp hmm
    obtain ⟨f, hf, hsf⟩ := List.mem_filterMap.mp (hres ▸ hr0mem)
    have hr0le : r0.score ≤ 100 := scoreFile_le_100 hsf
    have hsorted := List.sorted_mergeSort htrans htotal results
    rw [searchNotes] at hs
    rw [← hres] at hs
    rw [hs] at hsorted
    have hge : ∀ x ∈ tail, x.score ≤ r0.score := by
      intro x hx
      have hb := (List.pairwise_cons.mp hsorted).1 x hx
      simpa using hb
    have hr100 : r0.score = 100 := by
      have hmemSorted : (⟨D, 100, "exact"⟩ : MatchResult) ∈ r0 :: tail := by
        rw [← hs]
        exact List.mem_mergeSort.mpr hrD
      rcases List.mem_cons.mp hmemSorted with heq | hin
      · rw [← heq]
      · have := hge _ hin
        simp only at this
        omega
    have hfm := List.mem_filter.mp (hall ▸ hf)
    have hfD : f = D :=
      huniq f hfm.1 (by simpa using hfm.2) r0 hsf hr100
    rw [scoreFile_file hsf, hfD]

/-- A one-file vault for the witness. -/
def noteFile : VFile := ⟨"Note.md".toList, "Note.md".toList, "md".toList⟩

/-- Witness for C2's amended theorem: a single file `Note.md` resolves to its
own path. -/
theorem lookupNote_roundtrip_witness :
    noteFile ∈ [noteFile] ∧ noteFile.extension = ['m', 'd'] ∧
    trimStr (displayNameOf noteFile) = displayNameOf noteFile ∧
    displayNameOf noteFile ≠ [] ∧
    lookupNote [noteFile] (displayNameOf noteFile) = some noteFile.path := by
  refine ⟨by decide, by decide, by decide, by decide, ?_⟩
  exact lookupNote_roundtrip [noteFile] noteFile (by decide) (by decide) (by decide)
    (by decide)
    (fun f hf _ r _ _ => by simpa using hf)

/-- Duplicate display names: two distinct files both called `Note.md`. -/
def dupA : VFile := ⟨"Note.md".toList, "a/Note.md".toList, "md".toList⟩

def dupB : VFile := ⟨"Note.md".toList, "b/Note.md".toList, "md".toList⟩

/-- A file whose display name is empty (`.md`). -/
def dotFile : VFile := ⟨".md".toList, ".md".toList, "md".toList⟩

/-- A file whose display name starts with whitespace, next to a file that
matches the trimmed query exactly. -/
def spacedA : VFile := ⟨"A.md".toList, "A.md".toList, "md".toList⟩

def spacedB : VFile := ⟨" A.md".toList, "x/ A.md".toList, "md".toList⟩

/-- **C2, counterexample.**  Three indexed documents on which
`lookupNote(displayName(D))` does *not* return `D`'s path: (i) with two
files both named `Note.md`, the second one resolves to the first one's path;
(ii) a file named `.md` (empty display name) resolves to `null`;
(iii) a file whose display name begins with a space loses to an exact match
for the trimmed query. -/
theorem lookupNote_roundtrip_counterexample :
    (dupB ∈ [dupA, dupB] ∧ displayNameOf dupB = "Note".toList ∧
      lookupNote [dupA, dupB] (displayNameOf dupB) = some ("a/Note.md".toList) ∧
      dupB.path = "b/Note.md".toList ∧ ("a/Note.md".toList : Str) ≠ "b/Note.md".toList) ∧
    (displayNameOf dotFile = [] ∧
      lookupNote [dotFile] (displayNameOf dotFile) = none) ∧
    (displayNameOf spacedB = " A".toList ∧
      lookupNote [spacedA, spacedB] (displayNameOf spacedB) = some ("A.md".toList) ∧
      spacedB.path ≠ "A.md".toList) := by
  refine ⟨⟨by decide, by decide, ?_, by decide, by decide⟩,
          ⟨by decide, by decide⟩, ⟨by decide, ?_, by decide⟩⟩
  · show lookupNote [dupA, dupB] (displayNameOf dupB) = some ("a/Note.md".toList)
    have hdn : displayNameOf dupB = "Note".toList := by decide
    rw [hdn]
    unfold lookupNote
    dsimp only
    rw [show trimStr ("Note".toList) = "Note".toList from by decide]
    rw [if_neg (by decide : ¬ ("Note".toList : Str) = [])]
    rw [show ([dupA, dupB].filter (fun f => f.extension == ['m', 'd'])) = [dupA, dupB]
      from by decide]
    rw [if_neg (by decide : ¬ ([dupA, dupB] : List VFile).length = 0)]
    unfold searchNotes
    rw [show ([dupA, dupB].filterMap (scoreFile ("Note".toList))) =
      [⟨dupA, 100, "exact"⟩, ⟨dupB, 100, "exact"⟩] from by decide]
    rw [List.mergeSort_of_sorted (by decide)]
    rfl
  · show lookupNote [spacedA, spacedB] (displayNameOf spacedB) = some ("A.md".toList)
    have hdn : displayNameOf spacedB = " A".toList := by decide
    rw [hdn]
    unfold lookupNote
    dsimp only
    rw [show trimStr (" A".toList) = "A".toList from by decide]
    rw [if_neg (by decide : ¬ ("A".toList : Str) = [])]
    rw [show ([spacedA, spacedB].filter (fun f => f.extension == ['m', 'd'])) =
      [spacedA, spacedB] from by decide]
    rw [if_neg (by decide : ¬ ([spacedA, spacedB] : List VFile).length = 0)]
    unfold searchNotes
    rw [show ([spacedA, spacedB].filterMap (scoreFile ("A".toList))) =
      [⟨spacedA, 100, "exact"⟩, ⟨spacedB, 95, "exact"⟩] from by decide]
    rw [List.mergeSort_of_sorted (by decide)]
    rfl

end Fuzzy

namespace Emb

open Fuzzy (Str isWs trimStr toLowerStr jsIncludes splitDelims replaceFirst)

noncomputable section

/-- A JS number as it occurs in this pipeline: a finite real or NaN.
Infinities cannot arise here (every division with a nonzero numerator has a
nonzero denominator, and `Math.log` is only applied to positive ratios), so
`Option ℝ` with `none` = NaN is an exact model; all operations and
comparisons propagate NaN as JS does. -/
abbrev JsNum := Option ℝ

def jsAdd : JsNum → JsNum → JsNum
  | some a, some b => some (a + b)
  | _, _ => none

def jsMul : JsNum → JsNum → JsNum
  | some a, some b => some (a * b)
  | _, _ => none

/-- JS division; the only zero denominator reachable in this code is `0/0`,
which is NaN. -/
def jsDiv : JsNum → JsNum → JsNum
  | some a, some b => if b = 0 then none else some (a / b)
  | _, _ => none

/-- `Math.sqrt` (NaN on negative input). -/
def jsSqrt : JsNum → JsNum
  | some a => if a < 0 then none else some (Real.sqrt a)
  | none => none

/-- JS `a > t` for a possibly-NaN left operand: false whenever `a` is NaN. -/
def jsGtB (a : JsNum) (t : ℝ) : Bool :=
  match a with
  | some x => decide (t < x)
  | none => false

/-- The numeric value used by the JS sort comparator (all sorted similarity
values are finite, so the default is never observed). -/
def jsValD (x : JsNum) : ℝ := x.getD 0

/-- Sum of a list of JS numbers (the accumulation loops of
`cosineSimilarity`). -/
def sumJs (l : List JsNum) : JsNum := l.foldl jsAdd (some 0)

/-- The identity of a vault file (`TFile`): basename, path, `stat.mtime`. -/
structure TFileM where
  name : Str
  path : Str
  mtime : Nat

/-- `NoteEmbedding` from `vector_embeddings.ts`. -/
structure NoteEmbedding where
  noteId : Str
  noteName : Str
  path : Str
  content : Str
  vector : List JsNum
  lastModified : Nat
  keywords : List Str
  tags : List Str

/-- `SearchResult` from `vector_embeddings.ts`. -/
structure SearchResult where
  note : NoteEmbedding
  similarity : JsNum
  relevantChunks : List Str

/-- The mutable state of `VectorEmbeddingsManager`: the embeddings map (JS
`Map`, insertion order), the vocabulary (JS `Set`, insertion order), the IDF
table and the `isInitialized` flag. -/
structure EmbState where
  embeddings : List (Str × NoteEmbedding)
  vocabulary : List Str
  idfScores : List (Str × ℝ)
  isInitialized : Bool

/-! ### `preprocessText`: the chain of regex replacements. -/

/-- `replace(/#+\s/g, '')`: drop every maximal `#`-run followed by one
whitespace character (state machine: `true` = inside a run of `n` hashes). -/
def removeHeadersGo : Bool → Nat → Str → Str
  | _, n, [] => List.replicate n '#'
  | false, _, c :: rest =>
    if c = '#' then removeHeadersGo true 1 rest
    else c :: removeHeadersGo false 0 rest
  | true, n, c :: rest =>
    if c = '#' then removeHeadersGo true (n + 1) rest
    else if isWs c then removeHeadersGo false 0 rest
    else List.replicate n '#' ++ c :: removeHeadersGo false 0 rest

def removeHeaders (s : Str) : Str := removeHeadersGo false 0 s

/-- Lazy search (`(.*?)`) for the closing delimiter `close`; without
`allowNl` the inner text may not cross a newline (`.` in JS).  Returns the
inner text and the suffix after the closing delimiter. -/
def findClose (close : Str) (allowNl : Bool) : Str → Option (Str × Str)
  | [] => none
  | c :: rest =>
    if close.isPrefixOf (c :: rest) then some ([], (c :: rest).drop close.length)
    else if !allowNl && c = '\n' then none
    else (findClose close allowNl rest).map (fun p => (c :: p.1, p.2))

/-- Global replacement of `opn (.*?) close` by the inner text (or nothing):
on a failed match the regex scan advances one character.  Structural fuel
(one unit per consumed character; `close` is never empty, so
`s.length + 1` always suffices). -/
def stripDelimGo (opn close : Str) (keep allowNl : Bool) : Nat → Str → Str
  | 0, s => s
  | _ + 1, [] => []
  | fuel + 1, c :: rest =>
    if opn.isPrefixOf (c :: rest) then
      match findClose close allowNl ((c :: rest).drop opn.length) with
      | some (inner, after) =>
        (if keep then inner else []) ++ stripDelimGo opn close keep allowNl fuel after
      | none => c :: stripDelimGo opn close keep allowNl fuel rest
    else c :: stripDelimGo opn close keep allowNl fuel rest

def stripDelim (opn close : Str) (keep allowNl : Bool) (s : Str) : Str :=
  stripDelimGo opn close keep allowNl (s.length + 1) s

/-- `replace(/\[(.*?)\]\((.*?)\)/g, '$1')`: markdown links, keeping the
display text. -/
def stripLinksGo : Nat → Str → Str
  | 0, s => s
  | _ + 1, [] => []
  | fuel + 1, c :: rest =>
    if c = '[' then
      match findClose [']', '('] false rest with
      | some (text, after1) =>
        match findClose [')'] false after1 with
        | some (_, after2) => text ++ stripLinksGo fuel after2
        | none => c :: stripLinksGo fuel rest
      | none => c :: stripLinksGo fuel rest
    else c :: stripLinksGo fuel rest

def stripLinks (s : Str) : Str := stripLinksGo (s.length + 1) s

/-- JS `\w` (ASCII). -/
def isWordChar (c : Char) : Bool := c.isAlphanum || c = '_'

/-- `replace(/[^\w\s]/g, ' ')`. -/
def stripPunct (s : Str) : Str :=
  s.map (fun c => if isWordChar c || isWs c then c else ' ')

/-- `replace(/\s+/g, ' ')`. -/
def collapseWsGo : Bool → Str → Str
  | _, [] => []
  | prevWs, c :: rest =>
    if isWs c then
      (if prevWs then collapseWsGo true rest else ' ' :: collapseWsGo true rest)
    else c :: collapseWsGo false rest

def collapseWs (s : Str) : Str := collapseWsGo false s

/-- `preprocessText`: headers, bold, italic, links, wikilinks, fenced code,
inline code, punctuation→space, lowercase, whitespace collapse, trim —
in source order. -/
def preprocessText (text : Str) : Str :=
  trimStr (collapseWs (toLowerStr (stripPunct
    (stripDelim ("`".toList) ("`".toList) true false
      (stripDelim ("```".toList) ("```".toList) false true
        (stripDelim ("[[".toList) ("]]".toList) true false
          (stripLinks
            (stripDelim ("*".toList) ("*".toList) true false
              (stripDelim ("**".toList) ("**".toList) true false
                (removeHeaders text))))))))))

/-- The stop-word set of `isStopWord` (the source lists `would` twice). -/
def stopWords : List Str :=
  (["a", "an", "and", "are", "as", "at", "be", "by", "for", "from",
    "has", "he", "in", "is", "it", "its", "of", "on", "that", "the",
    "to", "was", "will", "with", "would", "you", "your", "have", "had",
    "can", "could", "should", "would", "may", "might", "must", "shall",
    "this", "these", "those", "they", "them", "their", "there", "where",
    "when", "why", "how", "what", "which", "who", "whom", "whose"]).map
    String.toList

def isStopWord (word : Str) : Bool := stopWords.contains word

/-- `split(/\s+/)` followed by the token filter `length > 2 && !stopword`
(splitting at single whitespace characters is equivalent because the filter
drops empty tokens). -/
def tokenizeWords (content : Str) : List Str :=
  (splitDelims isWs content).filter (fun w => decide (2 < w.length) && !isStopWord w)

/-- JS `Set.add`: dedup, insertion order. -/
def insertUnique (l : List Str) (x : Str) : List Str :=
  if l.contains x then l else l ++ [x]

/-- `buildVocabulary`: clear, then add every token of every document. -/
def buildVocabulary (documents : List Str) : List Str :=
  documents.foldl (fun vocab doc => (tokenizeWords doc).foldl insertUnique vocab) []

/-- `calculateIdfScores`: for every vocabulary term,
`ln(totalDocs / (1 + docsContainingTerm))`, where containment is substring
containment on the normalised document text. -/
def calculateIdfScores (vocabulary : List Str) (documents : List Str) :
    List (Str × ℝ) :=
  let totalDocs := documents.length
  vocabulary.map (fun term =>
    let docsContainingTerm := (documents.filter (fun doc => jsIncludes doc term)).length
    (term, Real.log ((totalDocs : ℝ) / (1 + (docsContainingTerm : ℝ)))))

/-- JS default `Array.prototype.sort()` comparison: lexicographic by
code units. -/
def lexLe : Str → Str → Bool
  | [], _ => true
  | _ :: _, [] => false
  | a :: as, b :: bs => if a = b then lexLe as bs else decide (a < b)

/-- `Array.from(this.vocabulary).sort()`. -/
def sortedVocabOf (vocabulary : List Str) : List Str :=
  vocabulary.mergeSort lexLe

/-- The `termFreq` map: JS `Map` counting occurrences in first-encounter
order. -/
def termFreqOf (words : List Str) : List (Str × Nat) :=
  words.foldl (fun m w => JsMap.mapSet m w ((JsMap.lookupAssoc m w).getD 0 + 1)) []

/-- Characters allowed inside a tag by `/#[\w\-_/]+/`. -/
def isTagChar (c : Char) : Bool := isWordChar c || c = '-' || c = '/'

/-- Global scan for `/#[\w\-_/]+/`: `acc` is the current candidate match
(reversed), starting with `#`; a match needs at least one tag character. -/
def extractTagsGo : Option Str → Str → List Str
  | none, [] => []
  | some acc, [] => if 2 ≤ acc.length then [acc.reverse] else []
  | none, c :: rest =>
    if c = '#' then extractTagsGo (some ['#']) rest else extractTagsGo none rest
  | some acc, c :: rest =>
    if isTagChar c then extractTagsGo (some (c :: acc)) rest
    else if 2 ≤ acc.length then
      acc.reverse ::
        (if c = '#' then extractTagsGo (some ['#']) rest else extractTagsGo none rest)
    else
      (if c = '#' then extractTagsGo (some ['#']) rest else extractTagsGo none rest)

/-- `[...new Set(matches)]`. -/
def dedup (l : List Str) : List Str := l.foldl insertUnique []

/-- `extractTags`. -/
def extractTags (content : Str) : List Str := dedup (extractTagsGo none content)

/-- `createNoteEmbedding`: TF–IDF vector over the sorted vocabulary
(`tf = count / words.length`, NaN when the document has no tokens), top-10
keywords by TF–IDF, extracted tags.  `content` is the already-normalised
text its callers pass in. -/
def createNoteEmbedding (vocabulary : List Str) (idfScores : List (Str × ℝ))
    (file : TFileM) (content : Str) : NoteEmbedding :=
  let words := tokenizeWords content
  let termFreq := termFreqOf words
  let sortedVocab := sortedVocabOf vocabulary
  let vector := sortedVocab.map (fun term =>
    jsMul (jsDiv (some (((JsMap.lookupAssoc termFreq term).getD 0 : Nat) : ℝ))
                 (some ((words.length : Nat) : ℝ)))
          (some ((JsMap.lookupAssoc idfScores term).getD 0)))
  let termScores := ((termFreq.map (fun p =>
      (p.1, jsMul (jsDiv (some ((p.2 : Nat) : ℝ)) (some ((words.length : Nat) : ℝ)))
                  (some ((JsMap.lookupAssoc idfScores p.1).getD 0))))).mergeSort
      (fun a b => decide (jsValD b.2 ≤ jsValD a.2))).take 10
  let keywords := termScores.map (·.1)
  let tags := extractTags content
  { noteId := file.path,
    noteName := replaceFirst ['.', 'm', 'd'] [] file.name,
    path := file.path,
    content := content,
    vector := vector,
    lastModified := file.mtime,
    keywords := keywords,
    tags := tags }

/-- `cosineSimilarity`: 0 on length mismatch, 0 when either accumulated
squared norm is exactly 0 (`===`, so NaN does not trigger it), otherwise
`dot / (sqrt(normA) * sqrt(normB))`. -/
def cosineSimilarity (vectorA vectorB : List JsNum) : JsNum :=
  if vectorA.length ≠ vectorB.length then some 0
  else
    let dotProduct := sumJs (List.zipWith jsMul vectorA vectorB)
    let normA := sumJs (List.zipWith jsMul vectorA vectorA)
    let normB := sumJs (List.zipWith jsMul vectorB vectorB)
    if normA = some 0 ∨ normB = some 0 then some 0
    else jsDiv dotProduct (jsMul (jsSqrt normA) (jsSqrt normB))

/-- `createQueryVector`: normalise and tokenise the query exactly like a
document, then build the TF–IDF vector over the current sorted vocabulary
(out-of-vocabulary query terms simply contribute nothing; an empty query
makes every `tf` equal to `0/0`, i.e. NaN). -/
def createQueryVector (vocabulary : List Str) (idfScores : List (Str × ℝ))
    (query : Str) : List JsNum :=
  let processedQuery := preprocessText query
  let queryWords := (splitDelims isWs processedQuery).filter
    (fun w => decide (2 < w.length) && !isStopWord w)
  let termFreq := termFreqOf queryWords
  (sortedVocabOf vocabulary).map (fun term =>
    jsMul (jsDiv (some (((JsMap.lookupAssoc termFreq term).getD 0 : Nat) : ℝ))
                 (some ((queryWords.length : Nat) : ℝ)))
          (some ((JsMap.lookupAssoc idfScores term).getD 0)))

/-- JS `Array.prototype.join`. -/
def joinSep (sep : Str) : List Str → Str
  | [] => []
  | [s] => s
  | s :: rest => s ++ sep ++ joinSep sep rest

/-- `findRelevantChunks`: overlapping 3-sentence windows scored by query-term
containment, top 3 by score.  (The preprocessed query is already
whitespace-normalised, so single-character splitting equals `split(/\s+/)`.) -/
def findRelevantChunks (content query : Str) : List Str :=
  let queryTerms := splitDelims isWs (preprocessText query)
  let sentences := (splitDelims (fun c => c = '.' || c = '!' || c = '?') content).filter
    (fun s => decide (0 < (trimStr s).length))
  let chunks := (List.range sentences.length).filterMap (fun i =>
    let chunk := trimStr (joinSep (". ".toList) ((sentences.drop i).take 3))
    if chunk.length < 50 then none
    else
      let score := queryTerms.countP (fun term => jsIncludes (toLowerStr chunk) term)
      if 0 < score then some (chunk, score) else none)
  ((chunks.mergeSort (fun a b => decide (b.2 ≤ a.2))).take 3).map (·.1)

/-- `buildEmbeddings`: read every vault file (unreadable files are logged
and skipped), normalise, rebuild the vocabulary and IDF table from scratch,
then (re)insert one embedding per readable file.  The embeddings map itself
is *not* cleared first. -/
def buildEmbeddings (vault : List (TFileM × Option Str)) (st : EmbState) : EmbState :=
  let noteData := vault.filterMap (fun fc =>
    fc.2.map (fun content => (fc.1, preprocessText content)))
  let documents := noteData.map (·.2)
  let vocabulary := buildVocabulary documents
  let idfScores := calculateIdfScores vocabulary documents
  let embeddings := noteData.foldl
    (fun acc fc => JsMap.mapSet acc fc.1.path
      (createNoteEmbedding vocabulary idfScores fc.1 fc.2))
    st.embeddings
  { embeddings := embeddings, vocabulary := vocabulary, idfScores := idfScores,
    isInitialized := st.isInitialized }

/-- The manager's initialisation step: build once, then set the flag. -/
def initializeIfNeeded (vault : List (TFileM × Option Str)) (st : EmbState) : EmbState :=
  if st.isInitialized then st
  else { buildEmbeddings vault st with isInitialized := true }

/-- `semanticSearch(query, limit, threshold)`: initialise on demand, build
the query vector, keep every embedding whose cosine similarity is strictly
above `threshold` (in map order), sort descending by similarity (stable),
truncate to `limit`. -/
def semanticSearch (vault : List (TFileM × Option Str)) (st : EmbState)
    (query : Str) (limit : Nat) (threshold : ℝ) : List SearchResult :=
  let st1 := initializeIfNeeded vault st
  let queryVector := createQueryVector st1.vocabulary st1.idfScores query
  let results := st1.embeddings.foldl (fun acc pe =>
    if jsGtB (cosineSimilarity queryVector pe.2.vector) threshold then
      acc ++ [⟨pe.2, cosineSimilarity queryVector pe.2.vector,
              findRelevantChunks pe.2.content query⟩]
    else acc) []
  (results.mergeSort
    (fun a b => decide (jsValD b.similarity ≤ jsValD a.similarity))).take limit

/-- `updateNoteEmbedding`: on read failure the error is logged and the state
is untouched; a new path triggers a full `buildEmbeddings`; an existing path
gets its embedding recomputed against the *current* vocabulary/IDF and
replaced in place. -/
def updateNoteEmbedding (vault : List (TFileM × Option Str)) (st : EmbState)
    (file : TFileM) (contentRead : Option Str) : EmbState :=
  match contentRead with
  | none => st
  | some content =>
    let cleanContent := preprocessText content
    if JsMap.hasKey st.embeddings file.path then
      { st with embeddings := (JsMap.mapSet st.embeddings file.path
          (createNoteEmbedding st.vocabulary st.idfScores file cleanContent)) }
    else buildEmbeddings vault st

/-- `findSimilarNotes(notePath, limit)`: like `semanticSearch` but with one
document's stored vector as the query and a fixed 0.1 threshold, skipping
the map entry whose key is the target path. -/
def findSimilarNotes (vault : List (TFileM × Option Str)) (st : EmbState)
    (notePath : Str) (limit : Nat) : List SearchResult :=
  let st1 := initializeIfNeeded vault st
  match JsMap.lookupAssoc st1.embeddings notePath with
  | none => []
  | some targetEmbedding =>
    let results := st1.embeddings.foldl (fun acc pe =>
      if pe.1 == notePath then acc
      else if jsGtB (cosineSimilarity targetEmbedding.vector pe.2.vector) (0.1 : ℝ) then
        acc ++ [⟨pe.2, cosineSimilarity targetEmbedding.vector pe.2.vector, []⟩]
      else acc) []
    (results.mergeSort
      (fun a b => decide (jsValD b.similarity ≤ jsValD a.similarity))).take limit

end

end Emb

namespace Emb

open Fuzzy (Str isWs trimStr toLowerStr jsIncludes splitDelims replaceFirst)

noncomputable section

theorem jsAdd_none_left (x : JsNum) : jsAdd none x = none := by cases x <;> rfl

theorem jsMul_none_left (x : JsNum) : jsMul none x = none := by cases x <;> rfl

theorem jsMul_none_right (x : JsNum) : jsMul x none = none := by cases x <;> rfl

theorem jsDiv_none_left (x : JsNum) : jsDiv none x = none := by cases x <;> rfl

theorem foldl_jsAdd_none (l : List JsNum) : l.foldl jsAdd none = none := by
  induction l with
  | nil => rfl
  | cons x rest ih => rw [List.foldl_cons, jsAdd_none_left]; exact ih

theorem foldl_jsAdd_mem_none : ∀ (l : List JsNum) (acc : JsNum), none ∈ l →
    l.foldl jsAdd acc = none := by
  intro l
  induction l with
  | nil => intro acc h; cases h
  | cons x rest ih =>
    intro acc h
    rw [List.foldl_cons]
    rcases List.mem_cons.mp h with hx | hx
    · rw [← hx, show jsAdd acc none = none from by cases acc <;> rfl]
      exact foldl_jsAdd_none rest
    · exact ih _ hx

theorem sumJs_none_mem {l : List JsNum} (h : none ∈ l) : sumJs l = none :=
  foldl_jsAdd_mem_none l (some 0) h

theorem jsGtB_some0_false {t : ℝ} (ht : 0 ≤ t) : jsGtB (some 0) t = false := by
  simp only [jsGtB]
  exact decide_eq_false (not_lt.mpr ht)

theorem jsSqrt_eq_zero {x : JsNum} (h : jsSqrt x = some 0) : x = some 0 := by
  cases x with
  | none => cases h
  | some v =>
    simp only [jsSqrt] at h
    by_cases hv : v < 0
    · rw [if_pos hv] at h; cases h
    · rw [if_neg hv] at h
      have h0 : Real.sqrt v = 0 := Option.some.inj h
      push_neg at hv
      exact congrArg some (le_antisymm (Real.sqrt_eq_zero'.mp h0) hv)

/-- A cosine similarity against an all-NaN vector (on either side) never
passes a nonnegative threshold: it is either exactly 0 (via the
length-mismatch or zero-norm guards) or NaN. -/
theorem jsGtB_cos_nan (qv v : List JsNum) {t : ℝ} (ht : 0 ≤ t)
    (h : (∀ x ∈ qv, x = none) ∨ (∀ x ∈ v, x = none)) :
    jsGtB (cosineSimilarity qv v) t = false := by
  by_cases hlen : qv.length ≠ v.length
  · unfold cosineSimilarity
    rw [if_pos hlen]
    exact jsGtB_some0_false ht
  · push_neg at hlen
    unfold cosineSimilarity
    rw [if_neg (by rw [hlen]; exact fun hc => hc rfl)]
    dsimp only
    cases v with
    | nil =>
      have hq : qv = [] := List.length_eq_zero.mp (by simpa using hlen)
      subst hq
      have h0 : sumJs (List.zipWith jsMul ([] : List JsNum) []) = some 0 := rfl
      rw [if_pos (Or.inl h0)]
      exact jsGtB_some0_false ht
    | cons y ys =>
      cases qv with
      | nil => simp at hlen
      | cons x xs =>
        by_cases hB : sumJs (List.zipWith jsMul (y :: ys) (y :: ys)) = some 0
        · rw [if_pos (Or.inr hB)]
          exact jsGtB_some0_false ht
        · have hdot : sumJs (List.zipWith jsMul (x :: xs) (y :: ys)) = none := by
            rcases h with hq | hv
            · have hx : x = none := hq x (List.mem_cons_self _ _)
              apply sumJs_none_mem
              rw [List.zipWith_cons_cons, hx, jsMul_none_left]
              exact List.mem_cons_self _ _
            · have hy : y = none := hv y (List.mem_cons_self _ _)
              apply sumJs_none_mem
              rw [List.zipWith_cons_cons, hy, jsMul_none_right]
              exact List.mem_cons_self _ _
          by_cases hA : sumJs (List.zipWith jsMul (x :: xs) (x :: xs)) = some 0
          · rw [if_pos (Or.inl hA)]
            exact jsGtB_some0_false ht
          · rw [if_neg (by rintro (hh | hh) <;> [exact hA hh; exact hB hh])]
            rw [hdot, jsDiv_none_left]
            rfl

theorem map_const_replicate (l : List γ) (b : δ) :
    l.map (fun _ => b) = List.replicate l.length b := by
  induction l with
  | nil => rfl
  | cons x rest ih => simp [ih, List.replicate_succ]

/-- The accumulation loop of `semanticSearch` is filter-then-map. -/
theorem semanticSearch_foldl_eq (qv : List JsNum) (t : ℝ) (query : Str)
    (l : List (Str × NoteEmbedding)) (acc : List SearchResult) :
    l.foldl (fun acc pe =>
      if jsGtB (cosineSimilarity qv pe.2.vector) t then
        acc ++ [⟨pe.2, cosineSimilarity qv pe.2.vector,
                findRelevantChunks pe.2.content query⟩]
      else acc) acc
    = acc ++ (l.filter (fun pe => jsGtB (cosineSimilarity qv pe.2.vector) t)).map
        (fun pe => ⟨pe.2, cosineSimilarity qv pe.2.vector,
                    findRelevantChunks pe.2.content query⟩) := by
  induction l generalizing acc with
  | nil => simp
  | cons p rest ih =>
    rw [List.foldl_cons, List.filter_cons]
    rcases Bool.eq_false_or_eq_true (jsGtB (cosineSimilarity qv p.2.vector) t) with hp | hp
    · rw [hp, ih]
      simp [List.append_assoc]
    · rw [hp]
      simp only [Bool.false_eq_true, if_false]
      rw [ih]

/-- The accumulation loop of `findSimilarNotes` is filter-then-map. -/
theorem findSimilar_foldl_eq (tv : List JsNum) (notePath : Str)
    (l : List (Str × NoteEmbedding)) (acc : List SearchResult) :
    l.foldl (fun acc pe =>
      if pe.1 == notePath then acc
      else if jsGtB (cosineSimilarity tv pe.2.vector) (0.1 : ℝ) then
        acc ++ [⟨pe.2, cosineSimilarity tv pe.2.vector, []⟩]
      else acc) acc
    = acc ++ (l.filter (fun pe =>
        !(pe.1 == notePath) && jsGtB (cosineSimilarity tv pe.2.vector) (0.1 : ℝ))).map
        (fun pe => ⟨pe.2, cosineSimilarity tv pe.2.vector, []⟩) := by
  induction l generalizing acc with
  | nil => simp
  | cons p rest ih =>
    rw [List.foldl_cons, List.filter_cons]
    rcases Bool.eq_false_or_eq_true (p.1 == notePath) with hk | hk
    · rw [hk]
      simp only [Bool.not_true, Bool.false_and, Bool.false_eq_true, if_false,
        eq_self_iff_true, if_true]
      rw [ih]
    · rcases Bool.eq_false_or_eq_true
          (jsGtB (cosineSimilarity tv p.2.vector) (0.1 : ℝ)) with hp | hp
      · rw [hk, hp]
        simp only [Bool.false_eq_true, if_false, Bool.not_false, Bool.true_and,
          eq_self_iff_true, if_true]
        rw [ih]
        simp [List.append_assoc]
      · rw [hk, hp]
        simp only [Bool.false_eq_true, if_false, Bool.not_false, Bool.true_and]
        rw [ih]

theorem initializeIfNeeded_of_init {vault : List (TFileM × Option Str)} {st : EmbState}
    (h : st.isInitialized = true) : initializeIfNeeded vault st = st := by
  unfold initializeIfNeeded
  rw [if_pos h]

theorem length_filter_mono {p q : γ → Bool} (l : List γ)
    (h : ∀ x ∈ l, p x = true → q x = true) :
    (l.filter p).length ≤ (l.filter q).length := by
  induction l with
  | nil => exact le_refl _
  | cons x rest ih =>
    rw [List.filter_cons, List.filter_cons]
    have ih' := ih (fun y hy => h y (List.mem_cons_of_mem _ hy))
    rcases Bool.eq_false_or_eq_true (p x) with hp | hp
    · have hq := h x (List.mem_cons_self _ _) hp
      rw [hp, hq]
      simpa using ih'
    · rcases Bool.eq_false_or_eq_true (q x) with hq | hq
      · rw [hp, hq]
        simp only [Bool.false_eq_true, if_false, eq_self_iff_true, if_true,
          List.length_cons]
        omega
      · rw [hp, hq]
        simpa using ih'

theorem jsGtB_mono {s : JsNum} {t₁ t₂ : ℝ} (h : t₁ ≤ t₂)
    (hs : jsGtB s t₂ = true) : jsGtB s t₁ = true := by
  cases s with
  | none => cases hs
  | some x =>
    simp only [jsGtB] at hs ⊢
    rw [decide_eq_true_eq] at hs
    exact decide_eq_true (lt_of_le_of_lt h hs)

end

end Emb

namespace Emb

open Fuzzy (Str isWs trimStr toLowerStr jsIncludes splitDelims replaceFirst)

noncomputable section

/-- **C4.**  `cosineSimilarity`: 0 on length mismatch; 0 when either
vector's Euclidean norm (`jsSqrt` of its summed squares) is 0; otherwise
exactly `dot(a,b) / (|a| * |b|)` under JS (NaN-propagating) arithmetic. -/
theorem cosineSimilarity_spec (a b : List JsNum) :
    (a.length ≠ b.length → cosineSimilarity a b = some 0) ∧
    (jsSqrt (sumJs (List.zipWith jsMul a a)) = some 0 ∨
       jsSqrt (sumJs (List.zipWith jsMul b b)) = some 0 →
      cosineSimilarity a b = some 0) ∧
    (a.length = b.length →
      sumJs (List.zipWith jsMul a a) ≠ some 0 →
      sumJs (List.zipWith jsMul b b) ≠ some 0 →
      cosineSimilarity a b =
        jsDiv (sumJs (List.zipWith jsMul a b))
          (jsMul (jsSqrt (sumJs (List.zipWith jsMul a a)))
                 (jsSqrt (sumJs (List.zipWith jsMul b b))))) := by
  refine ⟨?_, ?_, ?_⟩
  · intro h
    unfold cosineSimilarity
    rw [if_pos h]
  · intro h
    unfold cosineSimilarity
    by_cases hlen : a.length ≠ b.length
    · rw [if_pos hlen]
    · rw [if_neg hlen]
      dsimp only
      have hz : sumJs (List.zipWith jsMul a a) = some 0 ∨
          sumJs (List.zipWith jsMul b b) = some 0 := by
        rcases h with h | h
        · exact Or.inl (jsSqrt_eq_zero h)
        · exact Or.inr (jsSqrt_eq_zero h)
      rw [if_pos hz]
  · intro hlen hA hB
    unfold cosineSimilarity
    rw [if_neg (fun hc => hc hlen)]
    dsimp only
    rw [if_neg (by rintro (hh | hh); exacts [hA hh, hB hh])]

/-- Witness for C4 at concrete vectors: `[some 1]` vs `[]` (mismatch),
`[some 0]` (zero norm) and `[some 1]` against itself (generic branch). -/
theorem cosineSimilarity_spec_witness :
    (([some 1] : List JsNum).length ≠ ([] : List JsNum).length ∧
      cosineSimilarity [some 1] [] = some 0) ∧
    (jsSqrt (sumJs (List.zipWith jsMul [some 0] [some 0])) = some 0 ∧
      cosineSimilarity [some 0] [some 0] = some 0) ∧
    (sumJs (List.zipWith jsMul [some 1] [some 1]) ≠ some 0 ∧
      cosineSimilarity [some 1] [some 1] =
        jsDiv (sumJs (List.zipWith jsMul [some 1] [some 1]))
          (jsMul (jsSqrt (sumJs (List.zipWith jsMul [some 1] [some 1])))
                 (jsSqrt (sumJs (List.zipWith jsMul [some 1] [some 1]))))) := by
  have h1 : (([some 1] : List JsNum)).length ≠ ([] : List JsNum).length := by simp
  have hsum0 : sumJs (List.zipWith jsMul [some 0] [some 0]) = some 0 := by
    show jsAdd (some 0) (jsMul (some 0) (some 0)) = some 0
    simp [jsAdd, jsMul]
  have hsum1 : sumJs (List.zipWith jsMul [some 1] [some 1]) = some 1 := by
    show jsAdd (some 0) (jsMul (some 1) (some 1)) = some 1
    simp [jsAdd, jsMul]
  have hne1 : sumJs (List.zipWith jsMul [some 1] [some 1]) ≠ some 0 := by
    rw [hsum1]
    simp
  refine ⟨⟨h1, (cosineSimilarity_spec [some 1] []).1 h1⟩,
          ⟨?_, (cosineSimilarity_spec [some 0] [some 0]).2.1 (Or.inl ?_)⟩,
          ⟨hne1, (cosineSimilarity_spec [some 1] [some 1]).2.2 rfl hne1 hne1⟩⟩
  · rw [hsum0]
    simp [jsSqrt, Real.sqrt_zero]
  · rw [hsum0]
    simp [jsSqrt, Real.sqrt_zero]

/-- **C3.**  `updateNoteEmbedding` on a readable file: if the path is
already indexed, only that path's embedding changes, recomputed against the
*existing* vocabulary and IDF table (vocabulary, IDF, the flag, and every
other path's embedding are untouched); if the path is new, the call is a
full `buildEmbeddings` over the vault. -/
theorem updateNoteEmbedding_frame (vault : List (TFileM × Option Str))
    (st : EmbState) (file : TFileM) (raw : Str) :
    (JsMap.hasKey st.embeddings file.path = true →
      (updateNoteEmbedding vault st file (some raw)).vocabulary = st.vocabulary ∧
      (updateNoteEmbedding vault st file (some raw)).idfScores = st.idfScores ∧
      (updateNoteEmbedding vault st file (some raw)).isInitialized = st.isInitialized ∧
      JsMap.lookupAssoc (updateNoteEmbedding vault st file (some raw)).embeddings
          file.path =
        some (createNoteEmbedding st.vocabulary st.idfScores file
          (preprocessText raw)) ∧
      (∀ q, q ≠ file.path →
        JsMap.lookupAssoc (updateNoteEmbedding vault st file (some raw)).embeddings q =
          JsMap.lookupAssoc st.embeddings q)) ∧
    (JsMap.hasKey st.embeddings file.path = false →
      updateNoteEmbedding vault st file (some raw) = buildEmbeddings vault st) := by
  constructor
  · intro hk
    unfold updateNoteEmbedding
    dsimp only
    rw [if_pos hk]
    refine ⟨rfl, rfl, rfl, ?_, ?_⟩
    · exact JsMap.lookupAssoc_mapSet_self _ _ _
    · intro q hq
      exact JsMap.lookupAssoc_mapSet_ne _ _ hq
  · intro hk
    unfold updateNoteEmbedding
    dsimp only
    rw [if_neg (by rw [hk]; exact Bool.false_ne_true)]

/-- A tiny embedding and two states for the C3 witness. -/
def embX : NoteEmbedding :=
  ⟨"a.md".toList, "a".toList, "a.md".toList, [], [], 0, [], []⟩

def stPresent : EmbState := ⟨[("a.md".toList, embX)], [], [], true⟩

def stAbsent : EmbState := ⟨[], [], [], true⟩

def fileX : TFileM := ⟨"a.md".toList, "a.md".toList, 0⟩

/-- Witness for C3 at concrete inputs: one state containing `a.md` (frame
conditions hold) and one without it (full rebuild). -/
theorem updateNoteEmbedding_frame_witness :
    JsMap.hasKey stPresent.embeddings fileX.path = true ∧
    JsMap.hasKey stAbsent.embeddings fileX.path = false ∧
    (updateNoteEmbedding [] stPresent fileX (some [])).vocabulary =
      stPresent.vocabulary ∧
    updateNoteEmbedding [] stAbsent fileX (some []) = buildEmbeddings [] stAbsent := by
  refine ⟨rfl, rfl, ?_, ?_⟩
  · exact ((updateNoteEmbedding_frame [] stPresent fileX []).1 rfl).1
  · exact (updateNoteEmbedding_frame [] stAbsent fileX []).2 rfl

end

end Emb

namespace Emb

open Fuzzy (Str isWs trimStr toLowerStr jsIncludes splitDelims replaceFirst)

noncomputable section

/-- The result set described by the spec: every stored embedding whose
cosine similarity with the query vector strictly exceeds the threshold, in
map order, decorated with its similarity and relevant chunks. -/
def searchSpecResults (st : EmbState) (query : Str) (threshold : ℝ) :
    List SearchResult :=
  let queryVector := createQueryVector st.vocabulary st.idfScores query
  ((st.embeddings.map Prod.snd).filter
    (fun e => jsGtB (cosineSimilarity queryVector e.vector) threshold)).map
    (fun e => ⟨e, cosineSimilarity queryVector e.vector,
               findRelevantChunks e.content query⟩)

theorem searchResult_trans : ∀ (a b c : SearchResult),
    decide (jsValD b.similarity ≤ jsValD a.similarity) = true →
    decide (jsValD c.similarity ≤ jsValD b.similarity) = true →
    decide (jsValD c.similarity ≤ jsValD a.similarity) = true := by
  intro a b c hab hbc
  rw [decide_eq_true_eq] at *
  exact le_trans hbc hab

theorem searchResult_total : ∀ (a b : SearchResult),
    (decide (jsValD b.similarity ≤ jsValD a.similarity) ||
     decide (jsValD a.similarity ≤ jsValD b.similarity)) = true := by
  intro a b
  rw [Bool.or_eq_true, decide_eq_true_eq, decide_eq_true_eq]
  exact le_total _ _

/-- **C5.**  On an initialised index, `semanticSearch` returns exactly the
documents whose cosine similarity with the query vector strictly exceeds
`threshold` — stably sorted in descending order of similarity and truncated
to at most `limit` results. -/
theorem semanticSearch_spec (vault : List (TFileM × Option Str)) (st : EmbState)
    (query : Str) (limit : Nat) (threshold : ℝ)
    (hinit : st.isInitialized = true) :
    semanticSearch vault st query limit threshold =
      ((searchSpecResults st query threshold).mergeSort
        (fun a b => decide (jsValD b.similarity ≤ jsValD a.similarity))).take limit ∧
    (semanticSearch vault st query limit threshold).length ≤ limit ∧
    (semanticSearch vault st query limit threshold).Pairwise
      (fun a b => jsValD b.similarity ≤ jsValD a.similarity) := by
  have heq : semanticSearch vault st query limit threshold =
      ((searchSpecResults st query threshold).mergeSort
        (fun a b => decide (jsValD b.similarity ≤ jsValD a.similarity))).take limit := by
    unfold semanticSearch
    dsimp only
    rw [initializeIfNeeded_of_init hinit]
    rw [semanticSearch_foldl_eq, List.nil_append]
    have hlist : (st.embeddings.filter (fun pe =>
        jsGtB (cosineSimilarity
          (createQueryVector st.vocabulary st.idfScores query) pe.2.vector)
          threshold)).map
        (fun pe => (⟨pe.2,
          cosineSimilarity
            (createQueryVector st.vocabulary st.idfScores query) pe.2.vector,
          findRelevantChunks pe.2.content query⟩ : SearchResult)) =
        searchSpecResults st query threshold := by
      unfold searchSpecResults
      dsimp only
      rw [List.filter_map, List.map_map]
      rfl
    rw [hlist]
  refine ⟨heq, ?_, ?_⟩
  · rw [heq, List.length_take]
    exact min_le_left _ _
  · rw [heq]
    apply List.Pairwise.sublist (List.take_sublist _ _)
    have hs := List.sorted_mergeSort searchResult_trans searchResult_total
      (searchSpecResults st query threshold)
    exact hs.imp (by intro a b hab; exact decide_eq_true_eq.mp hab)

/-- Witness for C5 at the trivial initialised state. -/
theorem semanticSearch_spec_witness :
    (⟨[], [], [], true⟩ : EmbState).isInitialized = true ∧
    semanticSearch [] ⟨[], [], [], true⟩ [] 0 0 =
      ((searchSpecResults ⟨[], [], [], true⟩ [] 0).mergeSort
        (fun a b => decide (jsValD b.similarity ≤ jsValD a.similarity))).take 0 :=
  ⟨rfl, (semanticSearch_spec [] ⟨[], [], [], true⟩ [] 0 0 rfl).1⟩

/-- **C8.**  For fixed query, limit and index state, raising the threshold
never increases the number of results (the index state is arbitrary: the
initialisation step does not depend on the threshold). -/
theorem semanticSearch_threshold_mono (vault : List (TFileM × Option Str))
    (st : EmbState) (query : Str) (limit : Nat) {t₁ t₂ : ℝ} (h : t₁ ≤ t₂) :
    (semanticSearch vault st query limit t₂).length ≤
      (semanticSearch vault st query limit t₁).length := by
  unfold semanticSearch
  dsimp only
  rw [semanticSearch_foldl_eq, semanticSearch_foldl_eq, List.nil_append,
    List.nil_append, List.length_take, List.length_take, List.length_mergeSort,
    List.length_mergeSort, List.length_map, List.length_map]
  exact min_le_min (le_refl limit)
    (length_filter_mono _ (fun pe _ hp => jsGtB_mono h hp))

/-- Witness for C8 at concrete thresholds 0 ≤ 1 on the trivial state. -/
theorem semanticSearch_threshold_mono_witness :
    ((0 : ℝ) ≤ 1) ∧
    (semanticSearch [] ⟨[], [], [], true⟩ [] 5 1).length ≤
      (semanticSearch [] ⟨[], [], [], true⟩ [] 5 0).length :=
  ⟨zero_le_one, semanticSearch_threshold_mono [] ⟨[], [], [], true⟩ [] 5 zero_le_one⟩

end

end Emb

namespace Emb

open Fuzzy (Str isWs trimStr toLowerStr jsIncludes splitDelims replaceFirst)

noncomputable section

/-- With no tokens at all, every TF is `0 / 0` (NaN), so the whole TF–IDF
vector is NaN componentwise. -/
theorem tfidf_components_none (vocab : List Str) (idf : List (Str × ℝ)) :
    (sortedVocabOf vocab).map (fun term =>
      jsMul (jsDiv (some (((JsMap.lookupAssoc (termFreqOf ([] : List Str)) term).getD 0
                            : Nat) : ℝ))
                   (some ((List.length ([] : List Str) : Nat) : ℝ)))
            (some ((JsMap.lookupAssoc idf term).getD 0))) =
    List.replicate (sortedVocabOf vocab).length none := by
  have hcomp : ∀ term ∈ sortedVocabOf vocab,
      jsMul (jsDiv (some (((JsMap.lookupAssoc (termFreqOf ([] : List Str)) term).getD 0
                            : Nat) : ℝ))
                   (some ((List.length ([] : List Str) : Nat) : ℝ)))
            (some ((JsMap.lookupAssoc idf term).getD 0)) = none := by
    intro term _
    rw [show JsMap.lookupAssoc (termFreqOf ([] : List Str)) term = none from rfl]
    show jsMul (jsDiv (some ((0 : Nat) : ℝ)) (some ((0 : Nat) : ℝ))) _ = none
    rw [show ((0 : Nat) : ℝ) = (0 : ℝ) from Nat.cast_zero]
    rw [show jsDiv (some (0 : ℝ)) (some (0 : ℝ)) = none from by simp [jsDiv]]
    exact jsMul_none_left _
  rw [List.map_congr_left hcomp]
  exact map_const_replicate _ _

/-- **C6 (amended), main theorem.**  An empty query tokenises to the empty
token list, but the query vector it builds is the all-NaN vector (each TF is
`0/0`), one component per vocabulary term — not the zero vector.  Every
similarity comparison against it fails, so for every *nonnegative* threshold
the result list is empty (and no error is raised). -/
theorem semanticSearch_empty_query (vault : List (TFileM × Option Str))
    (st : EmbState) (limit : Nat) {t : ℝ}
    (hinit : st.isInitialized = true) (ht : 0 ≤ t) :
    tokenizeWords (preprocessText []) = [] ∧
    createQueryVector st.vocabulary st.idfScores [] =
      List.replicate (sortedVocabOf st.vocabulary).length none ∧
    semanticSearch vault st [] limit t = [] := by
  have hq : ∀ (vocab : List Str) (idf : List (Str × ℝ)),
      createQueryVector vocab idf [] =
        List.replicate (sortedVocabOf vocab).length none := by
    intro vocab idf
    unfold createQueryVector
    dsimp only
    rw [show (splitDelims isWs (preprocessText ([] : Str))).filter
        (fun w => decide (2 < w.length) && !isStopWord w) = [] from rfl]
    exact tfidf_components_none vocab idf
  refine ⟨rfl, hq _ _, ?_⟩
  unfold semanticSearch
  dsimp only
  rw [initializeIfNeeded_of_init hinit]
  rw [semanticSearch_foldl_eq, List.nil_append]
  rw [hq st.vocabulary st.idfScores]
  have hfil : st.embeddings.filter (fun pe =>
      jsGtB (cosineSimilarity
        (List.replicate (sortedVocabOf st.vocabulary).length none) pe.2.vector) t)
      = [] := by
    apply List.filter_eq_nil.mpr
    intro pe _
    rw [jsGtB_cos_nan _ _ ht (Or.inl (fun x hx => List.eq_of_mem_replicate hx))]
    simp
  rw [hfil]
  simp [List.mergeSort_nil]

/-- Witness for C6's amended theorem at the trivial initialised state and
threshold 0. -/
theorem semanticSearch_empty_query_witness :
    (⟨[], [], [], true⟩ : EmbState).isInitialized = true ∧ ((0 : ℝ) ≤ 0) ∧
    semanticSearch [] ⟨[], [], [], true⟩ [] 7 0 = [] :=
  ⟨rfl, le_refl 0, (semanticSearch_empty_query [] ⟨[], [], [], true⟩ 7 rfl (le_refl 0)).2.2⟩

/-- **C6, counterexample.**  (i) With one vocabulary term the empty query's
vector is `[NaN]`, not the zero vector.  (ii) With a document whose stored
vector is empty (buildable from an empty-content vault) and threshold `-1`,
the empty query *returns that document* (similarity 0 > -1), so the result
list is not empty for every threshold. -/
theorem semanticSearch_empty_query_counterexample :
    createQueryVector ["foo".toList] [("foo".toList, (1 : ℝ))] [] = [none] ∧
    ([none] : List JsNum) ≠ [some 0] ∧
    semanticSearch [] ⟨[("a.md".toList, embX)], [], [], true⟩ [] 10 (-1) =
      [⟨embX, some 0, []⟩] ∧
    semanticSearch [] ⟨[("a.md".toList, embX)], [], [], true⟩ [] 10 (-1) ≠ [] := by
  have hq : ∀ (vocab : List Str) (idf : List (Str × ℝ)),
      createQueryVector vocab idf [] =
        List.replicate (sortedVocabOf vocab).length none := by
    intro vocab idf
    unfold createQueryVector
    dsimp only
    rw [show (splitDelims isWs (preprocessText ([] : Str))).filter
        (fun w => decide (2 < w.length) && !isStopWord w) = [] from rfl]
    exact tfidf_components_none vocab idf
  have h1 : createQueryVector ["foo".toList] [("foo".toList, (1 : ℝ))] [] = [none] := by
    rw [hq]
    rw [show sortedVocabOf ["foo".toList] = ["foo".toList] from
      List.mergeSort_singleton _]
    rfl
  have hqnil : createQueryVector ([] : List Str) ([] : List (Str × ℝ)) [] = [] := by
    rw [hq]
    rw [show sortedVocabOf ([] : List Str) = [] from List.mergeSort_nil]
    rfl
  have hcos : cosineSimilarity ([] : List JsNum) embX.vector = some 0 := by
    unfold cosineSimilarity
    rw [if_neg (fun hc => hc rfl)]
    dsimp only
    have h0 : sumJs (List.zipWith jsMul ([] : List JsNum) []) = some 0 := rfl
    rw [if_pos (Or.inl h0)]
  have hgt : jsGtB (cosineSimilarity ([] : List JsNum) embX.vector) (-1) = true := by
    rw [hcos]
    simp only [jsGtB]
    exact decide_eq_true (by norm_num)
  have hmain : semanticSearch [] ⟨[("a.md".toList, embX)], [], [], true⟩ [] 10 (-1) =
      [⟨embX, some 0, []⟩] := by
    unfold semanticSearch
    dsimp only
    rw [initializeIfNeeded_of_init rfl]
    rw [semanticSearch_foldl_eq, List.nil_append]
    rw [show (⟨[("a.md".toList, embX)], [], [], true⟩ : EmbState).vocabulary
        = [] from rfl, show (⟨[("a.md".toList, embX)], [], [], true⟩ : EmbState).idfScores
        = [] from rfl]
    rw [hqnil]
    rw [List.filter_cons]
    rw [show jsGtB (cosineSimilarity ([] : List JsNum) embX.vector) (-1) = true from hgt]
    rw [show List.filter (fun pe =>
      jsGtB (cosineSimilarity ([] : List JsNum) pe.2.vector) (-1))
        ([] : List (Str × NoteEmbedding)) = [] from rfl]
    have hchunks : findRelevantChunks embX.content ([] : Str) = [] := by
      unfold findRelevantChunks
      dsimp only
      rw [show (splitDelims (fun c => c = '.' || c = '!' || c = '?') embX.content).filter
          (fun s => decide (0 < (trimStr s).length)) = [] from rfl]
      simp [List.mergeSort_nil]
    simp only [eq_self_iff_true, if_true, List.map_cons, List.map_nil, hcos, hchunks]
    rw [List.mergeSort_singleton]
    rfl
  refine ⟨h1, by simp, hmain, by rw [hmain]; simp⟩

end

end Emb

namespace Emb

open Fuzzy (Str isWs trimStr toLowerStr jsIncludes splitDelims replaceFirst)

noncomputable section

/-- **C7.**  On an initialised, well-formed index (each map value records the
key as its path, as `buildEmbeddings`/`updateNoteEmbedding` guarantee),
`findSimilarNotes` never includes the source document among its results. -/
theorem findSimilarNotes_excludes_self (vault : List (TFileM × Option Str))
    (st : EmbState) (notePath : Str) (limit : Nat)
    (hinit : st.isInitialized = true)
    (hwf : ∀ p e, (p, e) ∈ st.embeddings → e.path = p) :
    ∀ r ∈ findSimilarNotes vault st notePath limit, r.note.path ≠ notePath := by
  intro r hr
  unfold findSimilarNotes at hr
  dsimp only at hr
  rw [initializeIfNeeded_of_init hinit] at hr
  rcases hlook : JsMap.lookupAssoc st.embeddings notePath with _ | target
  · rw [hlook] at hr
    simp at hr
  · rw [hlook] at hr
    simp only at hr
    rw [findSimilar_foldl_eq, List.nil_append] at hr
    obtain ⟨pe, hpe, hfr⟩ :=
      List.mem_map.mp (List.mem_mergeSort.mp (List.mem_of_mem_take hr))
    have hmem := (List.mem_filter.mp hpe).1
    have hcond := (List.mem_filter.mp hpe).2
    have hkey : (pe.1 == notePath) = false := by
      have hb := ((Bool.and_eq_true _ _).mp hcond).1
      rcases Bool.eq_false_or_eq_true (pe.1 == notePath) with hk | hk
      · rw [hk] at hb
        simp at hb
      · exact hk
    have hne : pe.1 ≠ notePath := by simpa using hkey
    have hpath : pe.2.path = pe.1 := hwf pe.1 pe.2 hmem
    rw [← hfr]
    show pe.2.path ≠ notePath
    rw [hpath]
    exact hne

/-- Witness for C7 at a one-document state. -/
theorem findSimilarNotes_excludes_self_witness :
    (⟨[("a.md".toList, embX)], [], [], true⟩ : EmbState).isInitialized = true ∧
    (∀ p e, (p, e) ∈ (⟨[("a.md".toList, embX)], [], [], true⟩ : EmbState).embeddings →
      e.path = p) ∧
    (∀ r ∈ findSimilarNotes [] ⟨[("a.md".toList, embX)], [], [], true⟩
        ("a.md".toList) 5, r.note.path ≠ "a.md".toList) := by
  have hwf : ∀ p e, (p, e) ∈ [("a.md".toList, embX)] → e.path = p := by
    intro p e hm
    rcases List.mem_cons.mp hm with hm | hm
    · rw [Prod.mk.injEq] at hm
      rw [hm.2, hm.1]
      rfl
    · cases hm
  exact ⟨rfl, hwf,
    findSimilarNotes_excludes_self [] ⟨[("a.md".toList, embX)], [], [], true⟩
      ("a.md".toList) 5 rfl hwf⟩

/-- **C10.**  A document whose content yields zero tokens still receives an
embedding — its vector is NaN in every component, because each TF is the
unguarded `0/0` — and no embedding with that vector is ever returned by
`semanticSearch` (for any nonnegative threshold) or by `findSimilarNotes`
(fixed threshold 0.1). -/
theorem zeroTokenDoc_excluded (vocabulary : List Str) (idfScores : List (Str × ℝ))
    (file : TFileM) (content : Str) (h : tokenizeWords content = []) :
    (createNoteEmbedding vocabulary idfScores file content).vector =
      List.replicate (sortedVocabOf vocabulary).length none ∧
    (∀ (vault : List (TFileM × Option Str)) (st : EmbState) (query : Str)
        (limit : Nat) (t : ℝ), 0 ≤ t →
      ∀ r ∈ semanticSearch vault st query limit t,
        r.note.vector ≠ (createNoteEmbedding vocabulary idfScores file content).vector) ∧
    (∀ (vault : List (TFileM × Option Str)) (st : EmbState) (notePath : Str)
        (limit : Nat),
      ∀ r ∈ findSimilarNotes vault st notePath limit,
        r.note.vector ≠ (createNoteEmbedding vocabulary idfScores file content).vector) := by
  have hvec : (createNoteEmbedding vocabulary idfScores file content).vector =
      List.replicate (sortedVocabOf vocabulary).length none := by
    unfold createNoteEmbedding
    dsimp only
    rw [h]
    exact tfidf_components_none vocabulary idfScores
  refine ⟨hvec, ?_, ?_⟩
  · intro vault st query limit t ht r hr hveq
    unfold semanticSearch at hr
    dsimp only at hr
    rw [semanticSearch_foldl_eq, List.nil_append] at hr
    obtain ⟨pe, hpe, hfr⟩ :=
      List.mem_map.mp (List.mem_mergeSort.mp (List.mem_of_mem_take hr))
    have hcond := (List.mem_filter.mp hpe).2
    have hnote : r.note = pe.2 := by rw [← hfr]
    rw [hnote, hvec] at hveq
    rw [jsGtB_cos_nan _ _ ht
      (Or.inr (by rw [hveq]; exact fun x hx => List.eq_of_mem_replicate hx))] at hcond
    cases hcond
  · intro vault st notePath limit r hr hveq
    unfold findSimilarNotes at hr
    dsimp only at hr
    rcases hlook : JsMap.lookupAssoc (initializeIfNeeded vault st).embeddings notePath
      with _ | target
    · rw [hlook] at hr
      simp at hr
    · rw [hlook] at hr
      simp only at hr
      rw [findSimilar_foldl_eq, List.nil_append] at hr
      obtain ⟨pe, hpe, hfr⟩ :=
        List.mem_map.mp (List.mem_mergeSort.mp (List.mem_of_mem_take hr))
      have hcond := ((Bool.and_eq_true _ _).mp (List.mem_filter.mp hpe).2).2
      have hnote : r.note = pe.2 := by rw [← hfr]
      rw [hnote, hvec] at hveq
      rw [jsGtB_cos_nan _ _ (by norm_num : (0 : ℝ) ≤ 0.1)
        (Or.inr (by rw [hveq]; exact fun x hx => List.eq_of_mem_replicate hx))] at hcond
      cases hcond

/-- Witness for C10: the empty content has no tokens; the all-NaN vector of
its embedding over a one-term vocabulary. -/
theorem zeroTokenDoc_excluded_witness :
    tokenizeWords ([] : Str) = [] ∧
    (createNoteEmbedding ["foo".toList] [] fileX []).vector =
      List.replicate (sortedVocabOf ["foo".toList]).length none :=
  ⟨rfl, (zeroTokenDoc_excluded ["foo".toList] [] fileX [] rfl).1⟩

end

end Emb
